import Mathlib

/-!
Verification of the dslib intrusive AA-tree (src/include/ds_aatree.h,
src/src/ds_aatree.cpp) against its natural-language specification.

The C++ tree is embedded shallowly: a tree is an inductive value whose
nodes carry the caller's key (the payload, compared by the injected
`less_than` function, modelled by a linear order), a node identifier
standing for the node's address (pointer identity), and the `int` level
used by the AA balance discipline (modelled as `Int`, matching C++ `int`
arithmetic such as `t_level - 2` in `adjust_level`).  The shared nil
sentinel (level 0) is the `nil` constructor.  The iterative insert and
remove walks, which record parent link slots on an explicit path stack
and then rewrite those slots bottom-up, are rendered as structural
recursion: rewriting the popped slot after the recursive call is exactly
applying the fixup to the reconstructed subtree on the way out of the
recursion.  Calls to the injected `copy_contents` and `free_node`
functions are recorded in an event list.
-/

namespace DSLib

/-- Shallow embedding of an AA-tree reachable from an `AATreeNode*`:
either the shared nil sentinel or a node with payload key, node identity
(standing for the node's address), level, and two children. -/
inductive Tree (α : Type) where
  | nil : Tree α
  | node (key : α) (idn : Nat) (level : Int) (left : Tree α) (right : Tree α) : Tree α
deriving DecidableEq, Repr

variable {α : Type}

/-- Level of the root node; the nil sentinel is at level 0
(`m_nil.set_level(0)` in the `AATreeImpl` constructor). -/
def level : Tree α → Int
  | .nil => 0
  | .node _ _ lv _ _ => lv

/-- Left child of the root node (`get_left`). -/
def leftT : Tree α → Tree α
  | .nil => .nil
  | .node _ _ _ l _ => l

/-- Right child of the root node (`get_right`). -/
def rightT : Tree α → Tree α
  | .nil => .nil
  | .node _ _ _ _ r => r

/-- Key stored at the root node, `none` for the nil sentinel. -/
def rootKey : Tree α → Option α
  | .nil => none
  | .node k _ _ _ _ => some k

/-- Identity (address stand-in) of the root node, 0 for the nil sentinel. -/
def rootIdD : Tree α → Nat
  | .nil => 0
  | .node _ i _ _ _ => i

/-- Test for the nil sentinel (the C++ comparison `p == &m_nil`). -/
def isNil : Tree α → Bool
  | .nil => true
  | .node _ _ _ _ _ => false

/-- AATreeImpl::skew: if the left child is at the same level as the
root, rotate right so the left child becomes the new subtree root. -/
def skew : Tree α → Tree α
  | .nil => .nil
  | .node k i lv l r =>
    match l with
    | .nil => .node k i lv .nil r
    | .node lk li llv ll lr =>
      if lv = llv then .node lk li llv ll (.node k i lv lr r)
      else .node k i lv (.node lk li llv ll lr) r

/-- AATreeImpl::split: if there are two consecutive horizontal right
links (`t->level == t->right->right->level`), rotate left, pulling the
right child up one level. -/
def split : Tree α → Tree α
  | .nil => .nil
  | .node k i lv l r =>
    match r with
    | .nil => .node k i lv l .nil
    | .node rk ri rlv rl rr =>
      match rr with
      | .nil => .node k i lv l (.node rk ri rlv rl .nil)
      | .node xk xi xlv xl xr =>
        if lv = xlv then
          .node rk ri (rlv + 1) (.node k i lv l rl) (.node xk xi xlv xl xr)
        else .node k i lv l (.node rk ri rlv rl (.node xk xi xlv xl xr))

/-- Overwrite the level of the root node (`set_level`). -/
def setRootLevel : Tree α → Int → Tree α
  | .nil, _ => .nil
  | .node k i _ l r, lv => .node k i lv l r

/-- AATreeImpl::adjust_level: if one of the children is exactly two
levels below the node (`l_level == t_level-2 || r_level == t_level-2`),
decrease the node's level by one, and if the right child was at the same
level as the node, decrease the right child's level too. -/
def adjustLevel : Tree α → Tree α
  | .nil => .nil
  | .node k i lv l r =>
    if level l = lv - 2 ∨ level r = lv - 2 then
      if lv = level r then .node k i (lv - 1) l (setRootLevel r (lv - 1))
      else .node k i (lv - 1) l r
    else .node k i lv l r

/-- One bottom-up rebalancing step of AATreeImpl::remove at a popped
path slot: `adjust_level(*link); *link = skew(*link); *link = split(*link)`. -/
def fixup (t : Tree α) : Tree α := split (skew (adjustLevel t))

variable [LinearOrder α]

/-- Walk of AATreeImpl::insert: descend comparing with `less_than`,
reattach on the way back applying skew then split at every traversed
slot (the popped path stack).  `none` means a node comparing equal was
found and the insert returns false with nothing mutated.  The inserted
node is attached with its own level field `xlv` and both children set
to nil. -/
def insertAux (x : α) (xid : Nat) (xlv : Int) : Tree α → Option (Tree α)
  | .nil => some (.node x xid xlv .nil .nil)
  | .node k i lv l r =>
    if x < k then
      (insertAux x xid xlv l).map fun l2 => split (skew (.node k i lv l2 r))
    else if ¬ k < x then none
    else (insertAux x xid xlv r).map fun r2 => split (skew (.node k i lv l r2))

/-- Calls made by the tree to the caller-supplied functions during a
removal: `copy_contents(from, to)` and `free_node(node)`, identified by
node identity. -/
inductive Ev where
  | copy (src dst : Nat)
  | free (i : Nat)
deriving DecidableEq, Repr

/-- Victim search of AATreeImpl::remove case 3: descend to the leftmost
node of the subtree, pushing each traversed slot; the victim's slot is
replaced by the victim's right child, and every slot pushed during the
descent (the victim's ancestors within the subtree) is rebalanced with
`fixup` on the way back.  Returns the victim's key and identity. -/
def removeLeftmost : Tree α → Option ((α × Nat) × Tree α)
  | .nil => none
  | .node k i _ .nil r => some ((k, i), r)
  | .node k i lv l r =>
    (removeLeftmost l).map fun p => (p.1, fixup (.node k i lv p.2 r))

/-- Found-node block of AATreeImpl::remove, applied to the subtree
rooted at the matching node t (the slot `*link` after the search loop
breaks): case 1 detaches a true leaf, case 2 splices the single child,
case 3 copies the victim's contents into t and splices the victim's
right child (the victim's slot having been pushed is rebalanced inside
`removeLeftmost`; the extra push of t's own slot gives the inner
`fixup`).  In every case t's slot itself is then rebalanced once more
by the caller.  Events record the `free_node` and `copy_contents`
calls. -/
def removeRoot : Tree α → Option (Tree α × List Ev)
  | .nil => none
  | .node _ i _ .nil .nil => some (Tree.nil, [Ev.free i])
  | .node _ i _ .nil (.node rk ri rlv rl rr) =>
    some (.node rk ri rlv rl rr, [Ev.free i])
  | .node _ i _ (.node lk li llv ll lr) .nil =>
    some (.node lk li llv ll lr, [Ev.free i])
  | .node _ i lv (.node lk li llv ll lr) (.node rk ri rlv rl rr) =>
    match removeLeftmost (.node rk ri rlv rl rr) with
    | none => none
    | some ((vk, vi), r2) =>
      some (fixup (.node vk i lv (.node lk li llv ll lr) r2),
            [Ev.copy vi i, Ev.free vi])

/-- AATreeImpl::remove: walk down recording the path, then the
found-node block, then fixup at every recorded slot bottom-up.  The
slot holding the removed node is on the path, so its replacement
subtree gets one fixup here in every case.  `none` means no node
compared equal and the function returns false without mutating anything
or calling `free_node`. -/
def removeAux (x : α) : Tree α → Option (Tree α × List Ev)
  | .nil => none
  | .node k i lv l r =>
    if x < k then
      (removeAux x l).map fun p => (fixup (.node k i lv p.1 r), p.2)
    else if ¬ k < x then
      (removeRoot (.node k i lv l r)).map fun p => (fixup p.1, p.2)
    else
      (removeAux x r).map fun p => (fixup (.node k i lv l p.1), p.2)

/-- AATreeImpl::find: standard sentinel-bounded search; returns the
found node (as the subtree it roots, standing for the returned
pointer), or `none` for the null-pointer "not found" result. -/
def findT (x : α) : Tree α → Option (Tree α)
  | .nil => none
  | .node k i lv l r =>
    if x < k then findT x l
    else if ¬ k < x then some (.node k i lv l r)
    else findT x r

/-- AATreeImpl::contains: `find(node) != nullptr`. -/
def containsT (x : α) (t : Tree α) : Bool := (findT x t).isSome

/-- Public remove: boolean result plus resulting tree and the calls
made to the injected functions.  On the `false` path the code returns
before any mutation or callback. -/
def removePub (x : α) (t : Tree α) : Bool × Tree α × List Ev :=
  match removeAux x t with
  | none => (false, t, [])
  | some (t2, ev) => (true, t2, ev)

/-- Value of an `AATreeNode*` field of a node outside the tree: the
null pointer (constructor state), the tree's nil sentinel (set by
insert on success), or a pointer to some node. -/
inductive NodePtr where
  | null : NodePtr
  | nilS : NodePtr
  | toNode (i : Nat) : NodePtr
deriving DecidableEq, Repr

/-- Fields of a caller-held AATreeNode: payload key, identity, the two
child links and the level. -/
structure NodeFields (α : Type) where
  key : α
  idn : Nat
  left : NodePtr
  right : NodePtr
  level : Int
deriving DecidableEq, Repr

/-- AATreeNode constructor: `m_left(nullptr), m_right(nullptr), m_level(1)`. -/
def newNode (k : α) (i : Nat) : NodeFields α :=
  { key := k, idn := i, left := NodePtr.null, right := NodePtr.null, level := 1 }

/-- Conjunction of the three DS_ASSERT preconditions of insert:
`node->get_left() == nullptr`, `node->get_right() == nullptr`,
`node->get_level() == 1`. -/
def insertPre (nf : NodeFields α) : Prop :=
  nf.left = NodePtr.null ∧ nf.right = NodePtr.null ∧ nf.level = 1

instance (nf : NodeFields α) : Decidable (insertPre nf) := by
  unfold insertPre
  infer_instance

/-- Public insert: the three asserted preconditions (the `Except.error`
result is the assertion-failure hook), then the walk.  On the duplicate
path the function returns false before mutating the argument node or
the tree; on success the node is attached and its children are set to
the nil sentinel. -/
def insertPub (nf : NodeFields α) (t : Tree α) :
    Except Unit (Bool × Tree α × NodeFields α) :=
  if nf.left ≠ NodePtr.null then Except.error ()
  else if nf.right ≠ NodePtr.null then Except.error ()
  else if nf.level ≠ 1 then Except.error ()
  else
    match insertAux nf.key nf.idn nf.level t with
    | none => Except.ok (false, t, nf)
    | some t2 =>
      Except.ok (true, t2, { nf with left := NodePtr.nilS, right := NodePtr.nilS })

/-- One public mutating operation on the tree: insert of a fresh node
(constructor state, so level 1), or remove by key. -/
inductive Op (α : Type) where
  | ins (k : α) (i : Nat)
  | del (k : α)
deriving Repr

/-- Apply one public operation; a false return (duplicate insert or
missing key) leaves the tree unchanged, exactly as the C++ object is
left unmutated. -/
def applyOp (t : Tree α) : Op α → Tree α
  | .ins k i => match insertAux k i 1 t with | none => t | some t2 => t2
  | .del k => match removeAux k t with | none => t | some (t2, _) => t2

/-- Tree produced by a sequence of public operations starting from the
freshly constructed (empty) tree. -/
def build (ops : List (Op α)) : Tree α := ops.foldl applyOp .nil

/-- Keys in symmetric (in-) order. -/
def inorderKeys : Tree α → List α
  | .nil => []
  | .node k _ _ l r => inorderKeys l ++ k :: inorderKeys r

/-- Node identities in symmetric (in-) order. -/
def inorderIds : Tree α → List Nat
  | .nil => []
  | .node _ i _ l r => inorderIds l ++ i :: inorderIds r

/-- Number of nodes stored in the tree. -/
def sizeT : Tree α → Nat
  | .nil => 0
  | .node _ _ _ l r => sizeT l + 1 + sizeT r

/-- The four AA-tree level invariants of the specification, section 3:
(1) every true leaf has level 1; (2) a non-nil left child is exactly
one level below its parent; (3) a non-nil right child is at the
parent's level or one below; (4) no double horizontal right link. -/
def aaChk : Tree α → Bool
  | .nil => true
  | .node _ _ lv l r =>
    aaChk l && aaChk r
    && (!(isNil l) || !(isNil r) || lv == 1)
    && (isNil l || level l + 1 == lv)
    && (isNil r || level r == lv || level r + 1 == lv)
    && (isNil r || !(level r == lv) || !(level (rightT r) == lv))

/-- Binary-search ordering with respect to the injected strict order:
the symmetric-order key sequence is strictly increasing. -/
def Ordered (t : Tree α) : Prop := List.Pairwise (· < ·) (inorderKeys t)

instance (t : Tree α) : Decidable (Ordered t) := by
  unfold Ordered
  infer_instance

/-- Operation sequence exhibiting the level-invariant violation: insert
keys 1, 2, 3, 0 (each as a fresh node), then remove key 2. -/
def ceOps : List (Op Nat) :=
  [Op.ins 1 1, Op.ins 2 2, Op.ins 3 3, Op.ins 0 0, Op.del 2]

/-- Leftmost node of a tree (the node reached by following left links
while they are non-nil), as a subtree standing for the node pointer. -/
def leftmostT : Tree α → Option (Tree α)
  | .nil => none
  | .node k i lv .nil r => some (.node k i lv .nil r)
  | .node _ _ _ (.node lk li llv ll lr) _ => leftmostT (.node lk li llv ll lr)

/-- Nodes of the tree in symmetric (in-) order, each as the subtree it
roots (standing for the node pointer returned by the iterator). -/
def inorderSubs : Tree α → List (Tree α)
  | .nil => []
  | .node k i lv l r => inorderSubs l ++ (Tree.node k i lv l r) :: inorderSubs r

/-- Keys of a list of yielded nodes. -/
def keysOfSubs (L : List (Tree α)) : List α := L.filterMap rootKey

/-- Loop of AATreeIterImpl::init and of case 1 of next: push the node
and descend into left children until the nil sentinel is reached.  The
head of the resulting list is the top of the iterator's stack. -/
def pushLeftSpine : List (Tree α) → Tree α → List (Tree α)
  | s, .nil => s
  | s, .node k i lv l r => pushLeftSpine ((Tree.node k i lv l r) :: s) l

/-- AATreeIterImpl::init: push the leftmost spine from the root. -/
def iterInit (t : Tree α) : List (Tree α) := pushLeftSpine [] t

/-- Case 3 loop of AATreeIterImpl::next: pop ancestors reached through
right links until one reached through a left link is on top. -/
def popUpLoop : Tree α → List (Tree α) → List (Tree α)
  | _, [] => []
  | par, pp :: rest => if leftT pp = par then pp :: rest else popUpLoop pp rest

/-- AATreeIterImpl::next: return the top node and advance — push the
right child's left spine (case 1), or pop and stop at a parent reached
through a left link (case 2), or pop through right links (case 3).
`none` corresponds to the has_next() == false state. -/
def iterNext : List (Tree α) → Option (Tree α × List (Tree α))
  | [] => none
  | t :: rest =>
    if rightT t ≠ Tree.nil then some (t, pushLeftSpine (t :: rest) (rightT t))
    else
      match rest with
      | [] => some (t, [])
      | par :: rest2 =>
        if leftT par = t then some (t, par :: rest2)
        else some (t, popUpLoop par rest2)

/-- Drive the in-order iterator: call next repeatedly (at most `fuel`
times), collecting the yielded nodes until has_next() is false. -/
def iterRunT : Nat → List (Tree α) → List (Tree α)
  | 0, _ => []
  | Nat.succ n, s =>
    match iterNext s with
    | none => []
    | some (t, s2) => t :: iterRunT n s2

/-- Nodes the in-order iterator still has to yield, read off an
ancestor stack: after the node below the child `c`, a parent reached
through a left link is yielded followed by its right subtree, while a
parent reached through a right link is already finished. -/
def pendAboveL : Tree α → List (Tree α) → List (Tree α)
  | _, [] => []
  | c, p :: rest =>
    if leftT p = c then p :: (inorderSubs (rightT p) ++ pendAboveL p rest)
    else pendAboveL p rest

/-- Nodes the in-order iterator still has to yield from a stack state:
the top node, its right subtree, then the pending ancestors. -/
def pendingL : List (Tree α) → List (Tree α)
  | [] => []
  | t :: rest => t :: (inorderSubs (rightT t) ++ pendAboveL t rest)

/-- Hereditary distinctness of the two children of every node: either
the left child is nil or the two children differ as trees.  This holds
of every binary-search-ordered tree and makes equality of child values
coincide with pointer identity of child nodes. -/
def KidsDistinct : Tree α → Prop
  | .nil => True
  | .node _ _ _ l r => (l = Tree.nil ∨ l ≠ r) ∧ KidsDistinct l ∧ KidsDistinct r

/-- Modelled from the spec's description of adjust_level, amended from
"more than one below" to "exactly two below": the node's level drops by
one exactly when a child is exactly two levels below it, a same-level
right child is lowered with it, and nothing changes otherwise. -/
def adjustLevelSpecAmended (t : Tree α) : Prop :=
  (¬ (level (leftT t) = level t - 2 ∨ level (rightT t) = level t - 2) →
      adjustLevel t = t)
  ∧ ((level (leftT t) = level t - 2 ∨ level (rightT t) = level t - 2) →
      level (adjustLevel t) = level t - 1
      ∧ leftT (adjustLevel t) = leftT t
      ∧ rootKey (adjustLevel t) = rootKey t
      ∧ rootIdD (adjustLevel t) = rootIdD t
      ∧ (rightT t ≠ Tree.nil → level (rightT t) = level t →
          rightT (adjustLevel t) = setRootLevel (rightT t) (level t - 1)
          ∧ level (rightT (adjustLevel t)) = level t - 1)
      ∧ (level (rightT t) ≠ level t → rightT (adjustLevel t) = rightT t))

/-- Node at level 4 whose non-nil left child is at level 1, three
levels below: the claim's premise holds but adjust_level does nothing. -/
def ce8 : Tree Nat := Tree.node 5 1 4 (Tree.node 3 2 1 Tree.nil Tree.nil) Tree.nil

/-- Node at level 2 whose right child is two levels below, used to
exercise the amended adjust_level description. -/
def wit8 : Tree Nat :=
  Tree.node 5 1 2 (Tree.node 3 2 1 Tree.nil Tree.nil) Tree.nil

/-- Singleton tree holding key 5, used as a duplicate-insert witness. -/
def w10t : Tree Nat := Tree.node 5 7 1 Tree.nil Tree.nil

/-- Three-node tree (the result of inserting 2, 1, 3 with identities
2, 1, 3), whose root has two non-nil children; used to witness the
two-children removal claim. -/
def w6T : Tree Nat :=
  Tree.node 2 2 2 (Tree.node 1 1 1 Tree.nil Tree.nil)
    (Tree.node 3 3 1 Tree.nil Tree.nil)

/-- Stack entry of the postfix iterator: a node reference together
with the two visitation flags that the C++ code steals from the low
bits of the stored pointer (LEFT_VISITED and RIGHT_VISITED); the
specification directs reimplementations to carry them as explicit
booleans, which is what the embedding does. -/
structure PEntry (α : Type) where
  nd : Tree α
  lb : Bool
  rb : Bool
deriving DecidableEq, Repr

/-- AATreePostfixIterImpl::is_left_visited: trivially true when the
left child is the nil sentinel, otherwise the stored bit. -/
def lvisB (e : PEntry α) : Bool := isNil (leftT e.nd) || e.lb

/-- AATreePostfixIterImpl::is_right_visited: trivially true when the
right child is the nil sentinel, otherwise the stored bit. -/
def rvisB (e : PEntry α) : Bool := isNil (rightT e.nd) || e.rb

/-- Descent loop of AATreePostfixIterImpl::init and of next: walk to a
leaf preferring left children, taking the right child when the left is
nil, pushing every traversed node with clear flags. -/
def pushSpineP : List (PEntry α) → Tree α → List (PEntry α)
  | s, .nil => s
  | s, .node k i lv .nil r =>
    pushSpineP (⟨.node k i lv .nil r, false, false⟩ :: s) r
  | s, .node k i lv (.node lk li llv ll lr) r =>
    pushSpineP (⟨.node k i lv (.node lk li llv ll lr) r, false, false⟩ :: s)
      (.node lk li llv ll lr)

/-- AATreePostfixIterImpl::init: descend from the root to the first
leaf to visit. -/
def postInit (t : Tree α) : List (PEntry α) := pushSpineP [] t

/-- AATreePostfixIterImpl::next: pop the current node; if ancestors
remain, mark on the parent which subtree was just completed (comparing
the popped node against the parent's left child), and if the parent's
right subtree is not yet visited, descend into it; return the popped
node.  Flag reads on the popped node are assertions only (disabled in
release builds) and do not affect control flow. -/
def postNext : List (PEntry α) → Option (Tree α × List (PEntry α))
  | [] => none
  | [c] => some (c.nd, [])
  | c :: p :: rest2 =>
    let p' := if leftT p.nd = c.nd then { p with lb := true }
              else { p with rb := true }
    if rvisB p' then some (c.nd, p' :: rest2)
    else some (c.nd, pushSpineP (p' :: rest2) (rightT p.nd))

/-- Drive the postfix iterator: call next repeatedly (at most `fuel`
times), collecting the yielded nodes until has_next() is false. -/
def postRunT : Nat → List (PEntry α) → List (Tree α)
  | 0, _ => []
  | Nat.succ n, s =>
    match postNext s with
    | none => []
    | some (t, s2) => t :: postRunT n s2

/-- Nodes of the tree in postfix order, each as the subtree it roots. -/
def postSubs : Tree α → List (Tree α)
  | .nil => []
  | .node k i lv l r =>
    postSubs l ++ postSubs r ++ [Tree.node k i lv l r]

/-- Nodes the postfix iterator still owes for one stack entry: its
unvisited subtrees followed by the node itself. -/
def pendE (e : PEntry α) : List (Tree α) :=
  (if lvisB e then [] else postSubs (leftT e.nd)) ++
    ((if rvisB e then [] else postSubs (rightT e.nd)) ++ [e.nd])

/-- Nodes the postfix iterator still owes for the ancestors above a
given child: an ancestor entered through its left link still owes its
unvisited right subtree and itself, one entered through its right link
owes only itself. -/
def pendAboveP : Tree α → List (PEntry α) → List (Tree α)
  | _, [] => []
  | c, p :: rest =>
    if leftT p.nd = c then
      (if rvisB p then [] else postSubs (rightT p.nd)) ++
        (p.nd :: pendAboveP p.nd rest)
    else p.nd :: pendAboveP p.nd rest

/-- Nodes the postfix iterator still has to yield from a stack state. -/
def pendingP : List (PEntry α) → List (Tree α)
  | [] => []
  | e :: rest => pendE e ++ pendAboveP e.nd rest

/-- Relation between a stack entry and the node directly above it: the
node above is one of the entry's children, entered through a link whose
visited flag is still clear; entering through the right link requires
the left side to be already visited. -/
def AdjOK (above : Tree α) (e : PEntry α) : Prop :=
  (above = leftT e.nd ∧ above ≠ Tree.nil ∧ e.lb = false ∧ e.rb = false)
  ∨ (above = rightT e.nd ∧ above ≠ Tree.nil ∧ e.rb = false ∧ lvisB e = true)

/-- Adjacency of a node towards the top entry of a stack. -/
def AdjTo (u : Tree α) : List (PEntry α) → Prop
  | [] => True
  | p :: _ => AdjOK u p

/-- Well-formed postfix iterator stack: every entry is a non-nil node
with hereditarily distinct children, and consecutive entries are
linked by AdjOK. -/
def StackOK : List (PEntry α) → Prop
  | [] => True
  | e :: rest => (e.nd ≠ Tree.nil ∧ KidsDistinct e.nd) ∧ AdjTo e.nd rest ∧ StackOK rest

/-- Between calls to next, the top entry is completely visited. -/
def TopDone : List (PEntry α) → Prop
  | [] => True
  | e :: _ => lvisB e = true ∧ rvisB e = true

/-- Occurrence of a subtree (a node reference) within a tree. -/
def occursIn (s : Tree α) : Tree α → Prop
  | .nil => s = Tree.nil
  | .node k i lv l r => s = Tree.node k i lv l r ∨ occursIn s l ∨ occursIn s r

/-- Level of the nil sentinel. -/
@[simp] theorem level_nil : level (Tree.nil : Tree α) = 0 := rfl

/-- Level of a node. -/
@[simp] theorem level_node (k : α) (i : Nat) (lv : Int) (l r : Tree α) :
    level (Tree.node k i lv l r) = lv := rfl

/-- Left child of the nil sentinel. -/
@[simp] theorem leftT_nil : leftT (Tree.nil : Tree α) = Tree.nil := rfl

/-- Right child of the nil sentinel. -/
@[simp] theorem rightT_nil : rightT (Tree.nil : Tree α) = Tree.nil := rfl

/-- Left child of a node. -/
@[simp] theorem leftT_node (k : α) (i : Nat) (lv : Int) (l r : Tree α) :
    leftT (Tree.node k i lv l r) = l := rfl

/-- Right child of a node. -/
@[simp] theorem rightT_node (k : α) (i : Nat) (lv : Int) (l r : Tree α) :
    rightT (Tree.node k i lv l r) = r := rfl

/-- Key of a node. -/
@[simp] theorem rootKey_node (k : α) (i : Nat) (lv : Int) (l r : Tree α) :
    rootKey (Tree.node k i lv l r) = some k := rfl

/-- Identity of a node. -/
@[simp] theorem rootIdD_node (k : α) (i : Nat) (lv : Int) (l r : Tree α) :
    rootIdD (Tree.node k i lv l r) = i := rfl

/-- Unfolding of adjust_level at a node. -/
theorem adjustLevel_node (k : α) (i : Nat) (lv : Int) (l r : Tree α) :
    adjustLevel (Tree.node k i lv l r) =
      if level l = lv - 2 ∨ level r = lv - 2 then
        if lv = level r then Tree.node k i (lv - 1) l (setRootLevel r (lv - 1))
        else Tree.node k i (lv - 1) l r
      else Tree.node k i lv l r := rfl

/-- Fixing up the empty subtree does nothing. -/
@[simp] theorem fixup_nil : fixup (Tree.nil : Tree α) = Tree.nil := rfl

/-- Changing a root level does not change the key sequence. -/
@[simp] theorem inorderKeys_setRootLevel (t : Tree α) (lv : Int) :
    inorderKeys (setRootLevel t lv) = inorderKeys t := by
  cases t <;> rfl

/-- Changing a root level does not change the identity sequence. -/
@[simp] theorem inorderIds_setRootLevel (t : Tree α) (lv : Int) :
    inorderIds (setRootLevel t lv) = inorderIds t := by
  cases t <;> rfl

/-- Skew is a rotation: the symmetric-order key sequence is unchanged. -/
@[simp] theorem inorderKeys_skew (t : Tree α) :
    inorderKeys (skew t) = inorderKeys t := by
  match t with
  | .nil => rfl
  | .node k i lv .nil r => rfl
  | .node k i lv (.node lk li llv ll lr) r =>
    simp only [skew]
    split
    · simp [inorderKeys, List.append_assoc]
    · rfl

/-- Skew is a rotation: the symmetric-order identity sequence is unchanged. -/
@[simp] theorem inorderIds_skew (t : Tree α) :
    inorderIds (skew t) = inorderIds t := by
  match t with
  | .nil => rfl
  | .node k i lv .nil r => rfl
  | .node k i lv (.node lk li llv ll lr) r =>
    simp only [skew]
    split
    · simp [inorderIds, List.append_assoc]
    · rfl

/-- Split is a rotation: the symmetric-order key sequence is unchanged. -/
@[simp] theorem inorderKeys_split (t : Tree α) :
    inorderKeys (split t) = inorderKeys t := by
  match t with
  | .nil => rfl
  | .node k i lv l .nil => rfl
  | .node k i lv l (.node rk ri rlv rl .nil) => rfl
  | .node k i lv l (.node rk ri rlv rl (.node xk xi xlv xl xr)) =>
    simp only [split]
    split
    · simp [inorderKeys, List.append_assoc]
    · rfl

/-- Split is a rotation: the symmetric-order identity sequence is unchanged. -/
@[simp] theorem inorderIds_split (t : Tree α) :
    inorderIds (split t) = inorderIds t := by
  match t with
  | .nil => rfl
  | .node k i lv l .nil => rfl
  | .node k i lv l (.node rk ri rlv rl .nil) => rfl
  | .node k i lv l (.node rk ri rlv rl (.node xk xi xlv xl xr)) =>
    simp only [split]
    split
    · simp [inorderIds, List.append_assoc]
    · rfl

/-- Adjusting levels does not change the key sequence. -/
@[simp] theorem inorderKeys_adjustLevel (t : Tree α) :
    inorderKeys (adjustLevel t) = inorderKeys t := by
  match t with
  | .nil => rfl
  | .node k i lv l r =>
    simp only [adjustLevel]
    split
    · split
      · simp [inorderKeys]
      · rfl
    · rfl

/-- Adjusting levels does not change the identity sequence. -/
@[simp] theorem inorderIds_adjustLevel (t : Tree α) :
    inorderIds (adjustLevel t) = inorderIds t := by
  match t with
  | .nil => rfl
  | .node k i lv l r =>
    simp only [adjustLevel]
    split
    · split
      · simp [inorderIds]
      · rfl
    · rfl

/-- The deletion fixup step keeps the key sequence. -/
@[simp] theorem inorderKeys_fixup (t : Tree α) :
    inorderKeys (fixup t) = inorderKeys t := by
  unfold fixup
  rw [inorderKeys_split, inorderKeys_skew, inorderKeys_adjustLevel]

/-- The deletion fixup step keeps the identity sequence. -/
@[simp] theorem inorderIds_fixup (t : Tree α) :
    inorderIds (fixup t) = inorderIds t := by
  unfold fixup
  rw [inorderIds_split, inorderIds_skew, inorderIds_adjustLevel]

/-- Key sequence of a node. -/
theorem inorderKeys_node (k : α) (i : Nat) (lv : Int) (l r : Tree α) :
    inorderKeys (Tree.node k i lv l r) = inorderKeys l ++ k :: inorderKeys r := rfl

/-- Identity sequence of a node. -/
theorem inorderIds_node (k : α) (i : Nat) (lv : Int) (l r : Tree α) :
    inorderIds (Tree.node k i lv l r) = inorderIds l ++ i :: inorderIds r := rfl

/-- Characterization of binary-search ordering at a node. -/
theorem ordered_node_iff (k : α) (i : Nat) (lv : Int) (l r : Tree α) :
    Ordered (Tree.node k i lv l r) ↔
      Ordered l ∧ Ordered r ∧ (∀ a ∈ inorderKeys l, a < k) ∧
        (∀ b ∈ inorderKeys r, k < b) ∧
        ∀ a ∈ inorderKeys l, ∀ b ∈ inorderKeys r, a < b := by
  unfold Ordered
  rw [inorderKeys_node, List.pairwise_append, List.pairwise_cons]
  constructor
  · rintro ⟨h1, ⟨h2, h3⟩, h4⟩
    exact ⟨h1, h3, fun a ha => h4 a ha k (by simp), fun b hb => h2 b hb,
      fun a ha b hb => h4 a ha b (by simp [hb])⟩
  · rintro ⟨h1, h2, h3, h4, h5⟩
    refine ⟨h1, ⟨h4, h2⟩, ?_⟩
    intro a ha b hb
    rcases List.mem_cons.mp hb with hb | hb
    · subst hb
      exact h3 a ha
    · exact h5 a ha b hb

/-- Membership after a successful insert: the new key sequence holds
exactly the old keys and the inserted key. -/
theorem insertAux_mem (x : α) (xid : Nat) (xlv : Int) :
    ∀ (t t2 : Tree α), insertAux x xid xlv t = some t2 →
      ∀ y, y ∈ inorderKeys t2 ↔ y = x ∨ y ∈ inorderKeys t := by
  intro t
  induction t with
  | nil =>
    intro t2 h y
    simp only [insertAux, Option.some.injEq] at h
    subst h
    simp [inorderKeys]
  | node k i lv l r ihl ihr =>
    intro t2 h y
    rw [insertAux] at h
    by_cases h1 : x < k
    · rw [if_pos h1] at h
      cases hl : insertAux x xid xlv l with
      | none => rw [hl] at h; simp at h
      | some l2 =>
        rw [hl] at h
        simp only [Option.map_some', Option.some.injEq] at h
        subst h
        rw [inorderKeys_split, inorderKeys_skew, inorderKeys_node]
        rw [inorderKeys_node]
        simp only [List.mem_append, List.mem_cons, ihl l2 hl y]
        tauto
    · rw [if_neg h1] at h
      by_cases h2 : k < x
      · rw [if_neg (by simpa using h2)] at h
        cases hr : insertAux x xid xlv r with
        | none => rw [hr] at h; simp at h
        | some r2 =>
          rw [hr] at h
          simp only [Option.map_some', Option.some.injEq] at h
          subst h
          rw [inorderKeys_split, inorderKeys_skew, inorderKeys_node]
          rw [inorderKeys_node]
          simp only [List.mem_append, List.mem_cons, ihr r2 hr y]
          tauto
      · rw [if_pos (by simpa using h2)] at h
        cases h

/-- A successful insert preserves binary-search ordering. -/
theorem insertAux_ordered (x : α) (xid : Nat) (xlv : Int) :
    ∀ (t t2 : Tree α), Ordered t → insertAux x xid xlv t = some t2 →
      Ordered t2 := by
  intro t
  induction t with
  | nil =>
    intro t2 _ h
    simp only [insertAux, Option.some.injEq] at h
    subst h
    simp [Ordered, inorderKeys]
  | node k i lv l r ihl ihr =>
    intro t2 ho h
    rw [insertAux] at h
    rw [ordered_node_iff] at ho
    obtain ⟨hol, hor, hlk, hkr, hlr⟩ := ho
    by_cases h1 : x < k
    · rw [if_pos h1] at h
      cases hl : insertAux x xid xlv l with
      | none => rw [hl] at h; simp at h
      | some l2 =>
        rw [hl] at h
        simp only [Option.map_some', Option.some.injEq] at h
        subst h
        unfold Ordered
        rw [inorderKeys_split, inorderKeys_skew, inorderKeys_node]
        have hmem := insertAux_mem x xid xlv l l2 hl
        rw [List.pairwise_append, List.pairwise_cons]
        refine ⟨ihl l2 hol hl, ⟨hkr, hor⟩, ?_⟩
        intro a ha b hb
        have ha' : a = x ∨ a ∈ inorderKeys l := (hmem a).mp ha
        rcases List.mem_cons.mp hb with hb | hb
        · subst hb
          rcases ha' with rfl | ha'
          · exact h1
          · exact hlk a ha'
        · rcases ha' with rfl | ha'
          · exact lt_trans h1 (hkr b hb)
          · exact hlr a ha' b hb
    · rw [if_neg h1] at h
      by_cases h2 : k < x
      · rw [if_neg (by simpa using h2)] at h
        cases hr : insertAux x xid xlv r with
        | none => rw [hr] at h; simp at h
        | some r2 =>
          rw [hr] at h
          simp only [Option.map_some', Option.some.injEq] at h
          subst h
          unfold Ordered
          rw [inorderKeys_split, inorderKeys_skew, inorderKeys_node]
          have hmem := insertAux_mem x xid xlv r r2 hr
          rw [List.pairwise_append, List.pairwise_cons]
          refine ⟨hol, ⟨?_, ihr r2 hor hr⟩, ?_⟩
          · intro b hb
            rcases (hmem b).mp hb with rfl | hb'
            · exact h2
            · exact hkr b hb'
          · intro a ha b hb
            rcases List.mem_cons.mp hb with hb | hb
            · subst hb
              exact hlk a ha
            · rcases (hmem b).mp hb with rfl | hb'
              · exact lt_trans (hlk a ha) h2
              · exact hlr a ha b hb'
      · rw [if_pos (by simpa using h2)] at h
        cases h

/-- Inserting a key already present fails (the walk finds the equal
node and returns false). -/
theorem insertAux_none_of_mem (x : α) (xid : Nat) (xlv : Int) :
    ∀ (t : Tree α), Ordered t → x ∈ inorderKeys t →
      insertAux x xid xlv t = none := by
  intro t
  induction t with
  | nil => intro _ hx; simp [inorderKeys] at hx
  | node k i lv l r ihl ihr =>
    intro ho hx
    rw [ordered_node_iff] at ho
    obtain ⟨hol, hor, hlk, hkr, _⟩ := ho
    rw [inorderKeys_node] at hx
    rw [insertAux]
    by_cases h1 : x < k
    · rw [if_pos h1]
      have hxl : x ∈ inorderKeys l := by
        rcases List.mem_append.mp hx with hx | hx
        · exact hx
        · rcases List.mem_cons.mp hx with rfl | hx
          · exact absurd h1 (lt_irrefl x)
          · exact absurd (hkr x hx) (not_lt_of_gt h1)
      rw [ihl hol hxl]
      rfl
    · rw [if_neg h1]
      by_cases h2 : k < x
      · rw [if_neg (by simpa using h2)]
        have hxr : x ∈ inorderKeys r := by
          rcases List.mem_append.mp hx with hx | hx
          · exact absurd (hlk x hx) (not_lt_of_gt h2)
          · rcases List.mem_cons.mp hx with rfl | hx
            · exact absurd h2 (lt_irrefl x)
            · exact hx
        rw [ihr hor hxr]
        rfl
      · rw [if_pos (by simpa using h2)]

/-- A failed insert means the key was present. -/
theorem insertAux_mem_of_none (x : α) (xid : Nat) (xlv : Int) :
    ∀ (t : Tree α), insertAux x xid xlv t = none → x ∈ inorderKeys t := by
  intro t
  induction t with
  | nil => intro h; simp [insertAux] at h
  | node k i lv l r ihl ihr =>
    intro h
    rw [insertAux] at h
    rw [inorderKeys_node]
    by_cases h1 : x < k
    · rw [if_pos h1] at h
      cases hl : insertAux x xid xlv l with
      | none => exact List.mem_append.mpr (Or.inl (ihl hl))
      | some l2 => rw [hl] at h; simp at h
    · rw [if_neg h1] at h
      by_cases h2 : k < x
      · rw [if_neg (by simpa using h2)] at h
        cases hr : insertAux x xid xlv r with
        | none => exact List.mem_append.mpr (Or.inr (List.mem_cons_of_mem _ (ihr hr)))
        | some r2 => rw [hr] at h; simp at h
      · have : x = k := le_antisymm (not_lt.mp h2) (not_lt.mp h1)
        subst this
        exact List.mem_append.mpr (Or.inr (List.mem_cons_self _ _))

/-- Key sequence of the nil sentinel. -/
@[simp] theorem inorderKeys_nil : inorderKeys (Tree.nil : Tree α) = [] := rfl

/-- Identity sequence of the nil sentinel. -/
@[simp] theorem inorderIds_nil : inorderIds (Tree.nil : Tree α) = [] := rfl

/-- Find succeeds exactly on stored keys (on an ordered tree). -/
theorem findT_isSome_iff (x : α) :
    ∀ (t : Tree α), Ordered t → ((findT x t).isSome ↔ x ∈ inorderKeys t) := by
  intro t
  induction t with
  | nil => intro _; simp [findT]
  | node k i lv l r ihl ihr =>
    intro ho
    rw [ordered_node_iff] at ho
    obtain ⟨hol, hor, hlk, hkr, _⟩ := ho
    rw [findT, inorderKeys_node]
    by_cases h1 : x < k
    · rw [if_pos h1, ihl hol]
      simp only [List.mem_append, List.mem_cons]
      constructor
      · exact fun h => Or.inl h
      · rintro (h | rfl | h)
        · exact h
        · exact absurd h1 (lt_irrefl x)
        · exact absurd h1 (not_lt_of_gt (hkr x h))
    · rw [if_neg h1]
      by_cases h2 : k < x
      · rw [if_neg (by simpa using h2), ihr hor]
        simp only [List.mem_append, List.mem_cons]
        constructor
        · exact fun h => Or.inr (Or.inr h)
        · rintro (h | rfl | h)
          · exact absurd h2 (not_lt_of_gt (hlk x h))
          · exact absurd h2 (lt_irrefl x)
          · exact h
      · rw [if_pos (by simpa using h2)]
        have : x = k := le_antisymm (not_lt.mp h2) (not_lt.mp h1)
        subst this
        simp

/-- The node returned by find holds the searched key. -/
theorem findT_rootKey (x : α) :
    ∀ (t s : Tree α), findT x t = some s → rootKey s = some x := by
  intro t
  induction t with
  | nil => intro s h; simp [findT] at h
  | node k i lv l r ihl ihr =>
    intro s h
    rw [findT] at h
    by_cases h1 : x < k
    · rw [if_pos h1] at h
      exact ihl s h
    · rw [if_neg h1] at h
      by_cases h2 : k < x
      · rw [if_neg (by simpa using h2)] at h
        exact ihr s h
      · rw [if_pos (by simpa using h2)] at h
        have hk : x = k := le_antisymm (not_lt.mp h2) (not_lt.mp h1)
        cases h
        subst hk
        rfl

/-- Victim search at a node with nil left child: that node is the victim. -/
theorem removeLeftmost_node_nil (k : α) (i : Nat) (lv : Int) (r : Tree α) :
    removeLeftmost (Tree.node k i lv Tree.nil r) = some ((k, i), r) := rfl

/-- Victim search descends into a non-nil left child, rebalancing the
current slot on the way back. -/
theorem removeLeftmost_node_node (k : α) (i : Nat) (lv : Int)
    (lk : α) (li : Nat) (llv : Int) (ll lr r : Tree α) :
    removeLeftmost (Tree.node k i lv (Tree.node lk li llv ll lr) r) =
      (removeLeftmost (Tree.node lk li llv ll lr)).map
        fun p => (p.1, fixup (Tree.node k i lv p.2 r)) := rfl

/-- The victim search succeeds on any non-empty subtree. -/
theorem removeLeftmost_isSome :
    ∀ (t : Tree α), t ≠ Tree.nil → (removeLeftmost t).isSome := by
  intro t
  induction t with
  | nil => intro h; exact absurd rfl h
  | node k i lv l r ihl ihr =>
    intro _
    cases l with
    | nil => simp [removeLeftmost_node_nil]
    | node lk li llv ll lr =>
      rw [removeLeftmost_node_node]
      cases hq : removeLeftmost (Tree.node lk li llv ll lr) with
      | none =>
        have := ihl (by simp)
        rw [hq] at this
        simp at this
      | some q => simp

/-- The victim is the head of the subtree's symmetric order, and the
rest of the order is kept by the splice and fixups. -/
theorem removeLeftmost_inorder :
    ∀ (t : Tree α) (p : α × Nat) (r2 : Tree α), removeLeftmost t = some (p, r2) →
      inorderKeys t = p.1 :: inorderKeys r2 ∧ inorderIds t = p.2 :: inorderIds r2 := by
  intro t
  induction t with
  | nil => intro p r2 h; simp [removeLeftmost] at h
  | node k i lv l r ihl ihr =>
    intro p r2 h
    cases l with
    | nil =>
      rw [removeLeftmost_node_nil] at h
      simp only [Option.some.injEq, Prod.mk.injEq] at h
      obtain ⟨hp, hr⟩ := h
      subst hp
      subst hr
      exact ⟨rfl, rfl⟩
    | node lk li llv ll lr =>
      rw [removeLeftmost_node_node] at h
      cases hq : removeLeftmost (Tree.node lk li llv ll lr) with
      | none => rw [hq] at h; simp at h
      | some q =>
        rw [hq] at h
        simp only [Option.map_some', Option.some.injEq, Prod.mk.injEq] at h
        obtain ⟨hp, hr⟩ := h
        obtain ⟨ih1, ih2⟩ := ihl q.1 q.2 (by rw [hq])
        subst hp
        subst hr
        constructor
        · rw [inorderKeys_fixup,
            inorderKeys_node k i lv (Tree.node lk li llv ll lr) r, ih1,
            inorderKeys_node k i lv q.2 r]
          rfl
        · rw [inorderIds_fixup,
            inorderIds_node k i lv (Tree.node lk li llv ll lr) r, ih2,
            inorderIds_node k i lv q.2 r]
          rfl

/-- The victim found by the splice loop is the leftmost node of the
subtree, and that node has a nil left child. -/
theorem removeLeftmost_leftmostT :
    ∀ (t : Tree α) (p : α × Nat) (r2 : Tree α), removeLeftmost t = some (p, r2) →
      ∃ lvv rr, leftmostT t = some (Tree.node p.1 p.2 lvv Tree.nil rr) := by
  intro t
  induction t with
  | nil => intro p r2 h; simp [removeLeftmost] at h
  | node k i lv l r ihl ihr =>
    intro p r2 h
    cases l with
    | nil =>
      rw [removeLeftmost_node_nil] at h
      simp only [Option.some.injEq, Prod.mk.injEq] at h
      obtain ⟨hp, _⟩ := h
      subst hp
      exact ⟨lv, r, rfl⟩
    | node lk li llv ll lr =>
      rw [removeLeftmost_node_node] at h
      cases hq : removeLeftmost (Tree.node lk li llv ll lr) with
      | none => rw [hq] at h; simp at h
      | some q =>
        rw [hq] at h
        simp only [Option.map_some', Option.some.injEq, Prod.mk.injEq] at h
        obtain ⟨hp, _⟩ := h
        subst hp
        obtain ⟨lvv, rr, hlm⟩ := ihl q.1 q.2 (by rw [hq])
        exact ⟨lvv, rr, hlm⟩

/-- Found-node block at a true leaf: detach and free. -/
theorem removeRoot_leaf (k : α) (i : Nat) (lv : Int) :
    removeRoot (Tree.node k i lv Tree.nil Tree.nil) =
      some (Tree.nil, [Ev.free i]) := rfl

/-- Found-node block with empty left subtree: splice the right child. -/
theorem removeRoot_left_nil (k rk : α) (i ri : Nat) (lv rlv : Int)
    (rl rr : Tree α) :
    removeRoot (Tree.node k i lv Tree.nil (Tree.node rk ri rlv rl rr)) =
      some (Tree.node rk ri rlv rl rr, [Ev.free i]) := rfl

/-- Found-node block with empty right subtree: splice the left child. -/
theorem removeRoot_right_nil (k lk : α) (i li : Nat) (lv llv : Int)
    (ll lr : Tree α) :
    removeRoot (Tree.node k i lv (Tree.node lk li llv ll lr) Tree.nil) =
      some (Tree.node lk li llv ll lr, [Ev.free i]) := rfl

/-- Found-node block with two children: copy the victim's contents
into the node (identity i is kept, the key becomes the victim's),
splice, free the victim, and rebalance the slot a first time (the
doubled push of the slot). -/
theorem removeRoot_two (k lk rk vk : α) (i li ri vi : Nat)
    (lv llv rlv : Int) (ll lr rl rr r2 : Tree α)
    (hq : removeLeftmost (Tree.node rk ri rlv rl rr) = some ((vk, vi), r2)) :
    removeRoot (Tree.node k i lv (Tree.node lk li llv ll lr)
        (Tree.node rk ri rlv rl rr)) =
      some (fixup (Tree.node vk i lv (Tree.node lk li llv ll lr) r2),
            [Ev.copy vi i, Ev.free vi]) := by
  have hstep : removeRoot (Tree.node k i lv (Tree.node lk li llv ll lr)
      (Tree.node rk ri rlv rl rr)) =
      match removeLeftmost (Tree.node rk ri rlv rl rr) with
      | none => none
      | some ((vk', vi'), r2') =>
        some (fixup (Tree.node vk' i lv (Tree.node lk li llv ll lr) r2'),
              [Ev.copy vi' i, Ev.free vi']) := rfl
  rw [hstep, hq]

/-- A successful remove deletes exactly one occurrence of the searched
key from the symmetric order (up to permutation). -/
theorem removeAux_perm_keys (x : α) :
    ∀ (t t2 : Tree α) (ev : List Ev), removeAux x t = some (t2, ev) →
      (inorderKeys t).Perm (x :: inorderKeys t2) := by
  intro t
  induction t with
  | nil => intro t2 ev h; simp [removeAux] at h
  | node k i lv l r ihl ihr =>
    intro t2 ev h
    rw [removeAux] at h
    by_cases h1 : x < k
    · rw [if_pos h1] at h
      cases hl : removeAux x l with
      | none => rw [hl] at h; simp at h
      | some q =>
        rw [hl] at h
        simp only [Option.map_some', Option.some.injEq, Prod.mk.injEq] at h
        obtain ⟨ht2, hev⟩ := h
        subst ht2
        rw [inorderKeys_fixup, inorderKeys_node, inorderKeys_node]
        have ih := ihl q.1 q.2 (by rw [hl])
        exact ih.append_right (k :: inorderKeys r)
    · rw [if_neg h1] at h
      by_cases h2 : k < x
      · rw [if_neg (by simpa using h2)] at h
        cases hr : removeAux x r with
        | none => rw [hr] at h; simp at h
        | some q =>
          rw [hr] at h
          simp only [Option.map_some', Option.some.injEq, Prod.mk.injEq] at h
          obtain ⟨ht2, hev⟩ := h
          subst ht2
          rw [inorderKeys_fixup, inorderKeys_node, inorderKeys_node]
          have ih := ihr q.1 q.2 (by rw [hr])
          refine ((ih.cons k).append_left (inorderKeys l)).trans ?_
          have hmid := @List.perm_middle _ x (inorderKeys l ++ [k]) (inorderKeys q.1)
          simpa [List.append_assoc] using hmid
      · have hk : x = k := le_antisymm (not_lt.mp h2) (not_lt.mp h1)
        subst hk
        rw [if_pos (by simpa using h2)] at h
        cases l with
        | nil =>
          cases r with
          | nil =>
            rw [removeRoot_leaf] at h
            simp only [Option.map_some', Option.some.injEq, Prod.mk.injEq] at h
            obtain ⟨ht2, _⟩ := h
            subst ht2
            simp [inorderKeys_node]
          | node rk ri rlv rl rr =>
            rw [removeRoot_left_nil] at h
            simp only [Option.map_some', Option.some.injEq, Prod.mk.injEq] at h
            obtain ⟨ht2, _⟩ := h
            subst ht2
            rw [inorderKeys_fixup, inorderKeys_node]
            simp
        | node lk li llv ll lr =>
          cases r with
          | nil =>
            rw [removeRoot_right_nil] at h
            simp only [Option.map_some', Option.some.injEq, Prod.mk.injEq] at h
            obtain ⟨ht2, _⟩ := h
            subst ht2
            rw [inorderKeys_fixup, inorderKeys_node]
            have := @List.perm_middle _ x (inorderKeys (Tree.node lk li llv ll lr)) ([] : List α)
            simpa using this
          | node rk ri rlv rl rr =>
            cases hq : removeLeftmost (Tree.node rk ri rlv rl rr) with
            | none =>
              have := removeLeftmost_isSome (Tree.node rk ri rlv rl rr) (by simp)
              rw [hq] at this
              simp at this
            | some q =>
              obtain ⟨⟨vk, vi⟩, r2⟩ := q
              rw [removeRoot_two x lk rk vk i li ri vi lv llv rlv ll lr rl rr r2 hq] at h
              simp only [Option.map_some', Option.some.injEq, Prod.mk.injEq] at h
              obtain ⟨ht2, _⟩ := h
              subst ht2
              rw [inorderKeys_fixup, inorderKeys_fixup, inorderKeys_node, inorderKeys_node]
              obtain ⟨hk1, _⟩ := removeLeftmost_inorder _ _ _ hq
              rw [hk1]
              exact List.perm_middle

/-- A successful remove preserves binary-search ordering. -/
theorem removeAux_ordered (x : α) :
    ∀ (t t2 : Tree α) (ev : List Ev), Ordered t → removeAux x t = some (t2, ev) →
      Ordered t2 := by
  intro t
  induction t with
  | nil => intro t2 ev _ h; simp [removeAux] at h
  | node k i lv l r ihl ihr =>
    intro t2 ev ho h
    rw [ordered_node_iff] at ho
    obtain ⟨hol, hor, hlk, hkr, hlr⟩ := ho
    rw [removeAux] at h
    by_cases h1 : x < k
    · rw [if_pos h1] at h
      cases hl : removeAux x l with
      | none => rw [hl] at h; simp at h
      | some q =>
        rw [hl] at h
        simp only [Option.map_some', Option.some.injEq, Prod.mk.injEq] at h
        obtain ⟨ht2, _⟩ := h
        subst ht2
        have hperm := removeAux_perm_keys x l q.1 q.2 (by rw [hl])
        unfold Ordered
        rw [inorderKeys_fixup, inorderKeys_node, List.pairwise_append, List.pairwise_cons]
        refine ⟨ihl q.1 q.2 hol (by rw [hl]), ⟨hkr, hor⟩, ?_⟩
        intro a ha b hb
        have ha' : a ∈ inorderKeys l := hperm.symm.subset (List.mem_cons_of_mem _ ha)
        rcases List.mem_cons.mp hb with hb | hb
        · subst hb
          exact hlk a ha'
        · exact hlr a ha' b hb
    · rw [if_neg h1] at h
      by_cases h2 : k < x
      · rw [if_neg (by simpa using h2)] at h
        cases hr : removeAux x r with
        | none => rw [hr] at h; simp at h
        | some q =>
          rw [hr] at h
          simp only [Option.map_some', Option.some.injEq, Prod.mk.injEq] at h
          obtain ⟨ht2, _⟩ := h
          subst ht2
          have hperm := removeAux_perm_keys x r q.1 q.2 (by rw [hr])
          unfold Ordered
          rw [inorderKeys_fixup, inorderKeys_node, List.pairwise_append, List.pairwise_cons]
          refine ⟨hol, ⟨?_, ihr q.1 q.2 hor (by rw [hr])⟩, ?_⟩
          · intro b hb
            exact hkr b (hperm.symm.subset (List.mem_cons_of_mem _ hb))
          · intro a ha b hb
            rcases List.mem_cons.mp hb with hb | hb
            · subst hb
              exact hlk a ha
            · exact hlr a ha b (hperm.symm.subset (List.mem_cons_of_mem _ hb))
      · rw [if_pos (by simpa using h2)] at h
        cases l with
        | nil =>
          cases r with
          | nil =>
            rw [removeRoot_leaf] at h
            simp only [Option.map_some', Option.some.injEq, Prod.mk.injEq] at h
            obtain ⟨ht2, _⟩ := h
            subst ht2
            simp [Ordered]
          | node rk ri rlv rl rr =>
            rw [removeRoot_left_nil] at h
            simp only [Option.map_some', Option.some.injEq, Prod.mk.injEq] at h
            obtain ⟨ht2, _⟩ := h
            subst ht2
            unfold Ordered
            rw [inorderKeys_fixup]
            exact hor
        | node lk li llv ll lr =>
          cases r with
          | nil =>
            rw [removeRoot_right_nil] at h
            simp only [Option.map_some', Option.some.injEq, Prod.mk.injEq] at h
            obtain ⟨ht2, _⟩ := h
            subst ht2
            unfold Ordered
            rw [inorderKeys_fixup]
            exact hol
          | node rk ri rlv rl rr =>
            cases hq : removeLeftmost (Tree.node rk ri rlv rl rr) with
            | none =>
              have := removeLeftmost_isSome (Tree.node rk ri rlv rl rr) (by simp)
              rw [hq] at this
              simp at this
            | some q =>
              obtain ⟨⟨vk, vi⟩, r2⟩ := q
              rw [removeRoot_two k lk rk vk i li ri vi lv llv rlv ll lr rl rr r2 hq] at h
              simp only [Option.map_some', Option.some.injEq, Prod.mk.injEq] at h
              obtain ⟨ht2, _⟩ := h
              subst ht2
              obtain ⟨hk1, _⟩ := removeLeftmost_inorder _ _ _ hq
              unfold Ordered
              rw [inorderKeys_fixup, inorderKeys_fixup, inorderKeys_node,
                List.pairwise_append]
              refine ⟨hol, ?_, ?_⟩
              · rw [← hk1]
                exact hor
              · intro a ha b hb
                rw [← hk1] at hb
                exact hlr a ha b hb

/-- Remove succeeds whenever the key is stored (on an ordered tree). -/
theorem removeAux_isSome_of_mem (x : α) :
    ∀ (t : Tree α), Ordered t → x ∈ inorderKeys t → (removeAux x t).isSome := by
  intro t
  induction t with
  | nil => intro _ hx; simp at hx
  | node k i lv l r ihl ihr =>
    intro ho hx
    rw [ordered_node_iff] at ho
    obtain ⟨hol, hor, hlk, hkr, _⟩ := ho
    rw [inorderKeys_node] at hx
    rw [removeAux]
    by_cases h1 : x < k
    · rw [if_pos h1]
      have hxl : x ∈ inorderKeys l := by
        rcases List.mem_append.mp hx with hx | hx
        · exact hx
        · rcases List.mem_cons.mp hx with rfl | hx
          · exact absurd h1 (lt_irrefl x)
          · exact absurd (hkr x hx) (not_lt_of_gt h1)
      cases hl : removeAux x l with
      | none =>
        have := ihl hol hxl
        rw [hl] at this
        simp at this
      | some q => simp
    · rw [if_neg h1]
      by_cases h2 : k < x
      · rw [if_neg (by simpa using h2)]
        have hxr : x ∈ inorderKeys r := by
          rcases List.mem_append.mp hx with hx | hx
          · exact absurd (hlk x hx) (not_lt_of_gt h2)
          · rcases List.mem_cons.mp hx with rfl | hx
            · exact absurd h2 (lt_irrefl x)
            · exact hx
        cases hr : removeAux x r with
        | none =>
          have := ihr hor hxr
          rw [hr] at this
          simp at this
        | some q => simp
      · rw [if_pos (by simpa using h2)]
        cases l with
        | nil =>
          cases r with
          | nil => rw [removeRoot_leaf]; simp
          | node rk ri rlv rl rr => rw [removeRoot_left_nil]; simp
        | node lk li llv ll lr =>
          cases r with
          | nil => rw [removeRoot_right_nil]; simp
          | node rk ri rlv rl rr =>
            cases hq : removeLeftmost (Tree.node rk ri rlv rl rr) with
            | none =>
              have := removeLeftmost_isSome (Tree.node rk ri rlv rl rr) (by simp)
              rw [hq] at this
              simp at this
            | some q =>
              obtain ⟨⟨vk, vi⟩, r2⟩ := q
              rw [removeRoot_two k lk rk vk i li ri vi lv llv rlv ll lr rl rr r2 hq]
              simp

/-- Remove fails when no stored key compares equal to the searched one,
with no mutation and no callback. -/
theorem removeAux_none_of_not_mem (x : α) :
    ∀ (t : Tree α), (∀ y ∈ inorderKeys t, y ≠ x) → removeAux x t = none := by
  intro t
  induction t with
  | nil => intro _; rfl
  | node k i lv l r ihl ihr =>
    intro habs
    rw [inorderKeys_node] at habs
    rw [removeAux]
    by_cases h1 : x < k
    · rw [if_pos h1]
      rw [ihl (fun y hy => habs y (List.mem_append.mpr (Or.inl hy)))]
      rfl
    · rw [if_neg h1]
      by_cases h2 : k < x
      · rw [if_neg (by simpa using h2)]
        rw [ihr (fun y hy => habs y (List.mem_append.mpr (Or.inr (List.mem_cons_of_mem _ hy))))]
        rfl
      · have hk : x = k := le_antisymm (not_lt.mp h2) (not_lt.mp h1)
        exact absurd hk.symm (habs k (List.mem_append.mpr (Or.inr (List.mem_cons_self _ _))))

/-- Every operation sequence produces an ordered tree. -/
theorem build_ordered (ops : List (Op α)) : Ordered (build ops) := by
  suffices h : ∀ (t : Tree α), Ordered t → Ordered (List.foldl applyOp t ops) by
    exact h Tree.nil (by simp [Ordered])
  induction ops with
  | nil => intro t ht; exact ht
  | cons op rest ih =>
    intro t ht
    rw [List.foldl_cons]
    refine ih _ ?_
    cases op with
    | ins k i =>
      show Ordered (applyOp t (Op.ins k i))
      rw [applyOp]
      cases hins : insertAux k i 1 t with
      | none => exact ht
      | some t2 => exact insertAux_ordered k i 1 t t2 ht hins
    | del k =>
      show Ordered (applyOp t (Op.del k))
      rw [applyOp]
      cases hdel : removeAux k t with
      | none => exact ht
      | some p => exact removeAux_ordered k t p.1 p.2 ht hdel

/-- Keys of a tree built by inserting a list of keys into an empty
tree: exactly the listed keys. -/
theorem build_ins_mem (ks : List α) (y : α) :
    y ∈ inorderKeys (build (ks.map fun k => Op.ins k 0)) ↔ y ∈ ks := by
  suffices h : ∀ (t : Tree α), Ordered t →
      (y ∈ inorderKeys (List.foldl applyOp t (ks.map fun k => Op.ins k 0)) ↔
        y ∈ ks ∨ y ∈ inorderKeys t) by
    have := h Tree.nil (by simp [Ordered])
    simpa [build] using this
  induction ks with
  | nil => intro t _; simp
  | cons k rest ih =>
    intro t ht
    simp only [List.map_cons, List.foldl_cons]
    have happ : applyOp t (Op.ins k 0) = match insertAux k 0 1 t with
        | none => t
        | some t2 => t2 := rfl
    cases hins : insertAux k 0 1 t with
    | none =>
      have hkmem : k ∈ inorderKeys t := insertAux_mem_of_none k 0 1 t hins
      rw [happ, hins]
      rw [ih t ht]
      simp only [List.mem_cons]
      constructor
      · rintro (h | h)
        · exact Or.inl (Or.inr h)
        · exact Or.inr h
      · rintro (⟨rfl | h⟩ | h)
        · exact Or.inr hkmem
        · exact Or.inl h
        · exact Or.inr h
    | some t2 =>
      rw [happ, hins]
      rw [ih t2 (insertAux_ordered k 0 1 t t2 ht hins)]
      have hm := insertAux_mem k 0 1 t t2 hins y
      simp only [List.mem_cons]
      constructor
      · rintro (h | h)
        · exact Or.inl (Or.inr h)
        · rcases (hm).mp h with rfl | h
          · exact Or.inl (Or.inl rfl)
          · exact Or.inr h
      · rintro (⟨rfl | h⟩ | h)
        · exact Or.inr ((hm).mpr (Or.inl rfl))
        · exact Or.inl h
        · exact Or.inr ((hm).mpr (Or.inr h))

/-- C2: the level invariants do NOT survive every operation sequence.
After inserting keys 1, 2, 3, 0 and removing 2, the tree produced by
the code is `0@1(nil, 3@1(1@1, nil))`: node 3 at level 1 has the
non-nil left child 1 at level 1, violating invariant (2) (a non-nil
left child must be exactly one level below its parent), although the
tree is still binary-search ordered.  The deletion rebalance applies
only one skew and one split per path slot, where Andersson's deletion
also requires skews at the right child and right-right child and a
second split. -/
theorem c2_level_invariant_violated :
    aaChk (build ceOps) = false
    ∧ List.Pairwise (· < ·) (inorderKeys (build ceOps)) := by
  constructor
  · decide
  · decide

/-- C8 counterexample: for the concrete node ce8 (level 4, non-nil
left child at level 1), the left child's level is more than one below
the node's, yet adjust_level leaves the node unchanged: the code fires
only when a child is EXACTLY two levels below (`l_level == t_level-2`),
not "more than one below" as the claim states. -/
theorem c8_counterexample :
    level (leftT ce8) < level ce8 - 1 ∧ adjustLevel ce8 = ce8 := by
  decide

/-- C8 (amended): for every non-nil node t, adjust_level decrements
t's level by one exactly when either child's level is exactly two below
t's level; when it does so, a non-nil right child that was at t's level
is lowered to the new level, a right child not at t's level is left
untouched, and the left child, key and identity are unchanged; when
neither child is exactly two below, the node is unchanged. -/
theorem c8_adjust_level_amended (t : Tree α) (h : t ≠ Tree.nil) :
    adjustLevelSpecAmended t := by
  match t, h with
  | Tree.node k i lv l r, _ =>
    unfold adjustLevelSpecAmended
    constructor
    · intro hno
      simp only [leftT_node, rightT_node, level_node] at hno
      rw [adjustLevel_node, if_neg hno]
    · intro hyes
      simp only [leftT_node, rightT_node, level_node] at hyes
      rw [adjustLevel_node, if_pos hyes]
      by_cases hsame : lv = level r
      · rw [if_pos hsame]
        refine ⟨rfl, rfl, rfl, rfl, ?_, ?_⟩
        · intro hrnil _
          refine ⟨rfl, ?_⟩
          simp only [rightT_node] at hrnil
          match r, hrnil with
          | Tree.node rk ri rlv rl rr, _ => rfl
        · intro hne
          simp only [rightT_node, level_node] at hne
          exact absurd hsame.symm hne
      · rw [if_neg hsame]
        refine ⟨rfl, rfl, rfl, rfl, ?_, ?_⟩
        · intro _ hr
          simp only [rightT_node, level_node] at hr
          exact absurd hr.symm hsame
        · intro _
          rfl

/-- C8 amended claim witnessed at the concrete node wit8 (level 2 with
nil right child at level 0, exactly two below). -/
theorem c8_adjust_level_amended_witness :
    wit8 ≠ Tree.nil ∧ adjustLevelSpecAmended wit8 :=
  ⟨by decide, c8_adjust_level_amended wit8 (by decide)⟩

/-- C9: the three DS_ASSERT preconditions of insert (left and right
null, level 1) hold of every node in constructor state; a node
satisfying them never takes the assertion path, and any node violating
them makes insert take the assertion path (the error result) without
touching the tree. -/
theorem c9_insert_asserts (k : α) (i : Nat) (nf : NodeFields α) (t : Tree α) :
    insertPre (newNode k i)
    ∧ (insertPre nf → insertPub nf t ≠ Except.error ())
    ∧ (¬ insertPre nf → insertPub nf t = Except.error ()) := by
  refine ⟨⟨rfl, rfl, rfl⟩, ?_, ?_⟩
  · rintro ⟨h1, h2, h3⟩
    unfold insertPub
    rw [if_neg (by simp [h1]), if_neg (by simp [h2]), if_neg (by simp [h3])]
    cases hins : insertAux nf.key nf.idn nf.level t <;> simp
  · intro hnot
    simp only [insertPre, not_and_or] at hnot
    by_cases h1 : nf.left = NodePtr.null
    · by_cases h2 : nf.right = NodePtr.null
      · have h3 : nf.level ≠ 1 := by tauto
        simp [insertPub, h1, h2, h3]
      · simp [insertPub, h2]
    · simp [insertPub, h1]

/-- C9 witnessed: a fresh node (key 5, identity 1) passes the asserts,
and a node with a non-null left link takes the assertion path. -/
theorem c9_insert_asserts_witness :
    insertPre (newNode (5 : Nat) 1)
    ∧ (insertPre (newNode (5 : Nat) 1) →
        insertPub (newNode (5 : Nat) 1) w10t ≠ Except.error ())
    ∧ (¬ insertPre (newNode (5 : Nat) 1) →
        insertPub (newNode (5 : Nat) 1) w10t = Except.error ()) :=
  c9_insert_asserts 5 1 (newNode 5 1) w10t

/-- C10: whenever insert returns false (duplicate key), the argument
node's fields are exactly as before the call, and the tree is the same:
the false return happens during the descent, before any write. -/
theorem c10_failed_insert_frame (nf : NodeFields α) (t t2 : Tree α)
    (nf2 : NodeFields α)
    (h : insertPub nf t = Except.ok (false, t2, nf2)) :
    nf2 = nf ∧ t2 = t := by
  unfold insertPub at h
  split at h
  · exact absurd h (by simp)
  · split at h
    · exact absurd h (by simp)
    · split at h
      · exact absurd h (by simp)
      · split at h
        · simp only [Except.ok.injEq, Prod.mk.injEq] at h
          exact ⟨h.2.2.symm, h.2.1.symm⟩
        · simp only [Except.ok.injEq, Prod.mk.injEq] at h
          exact absurd h.1 (by simp)

/-- C10 witnessed: inserting a fresh node with key 5 into a tree that
already stores 5 returns false with the node and tree unchanged. -/
theorem c10_failed_insert_frame_witness :
    newNode (5 : Nat) 1 = newNode 5 1 ∧ w10t = w10t :=
  c10_failed_insert_frame (newNode 5 1) w10t w10t (newNode 5 1) (by rfl)

/-- C1: for a set of distinct keys inserted into an initially empty
tree, contains answers membership in the set exactly, and after a
successful remove of a stored key, contains on that key is false. -/
theorem c1_membership (ks : List α) (hnd : ks.Nodup) (k : α) :
    (containsT k (build (ks.map fun x => Op.ins x 0)) = true ↔ k ∈ ks)
    ∧ (k ∈ ks →
        ∃ p : Tree α × List Ev,
          removeAux k (build (ks.map fun x => Op.ins x 0)) = some p
          ∧ containsT k p.1 = false) := by
  have ho : Ordered (build (ks.map fun x => Op.ins x 0)) := build_ordered _
  constructor
  · constructor
    · intro hc
      exact (build_ins_mem ks k).mp ((findT_isSome_iff k _ ho).mp hc)
    · intro hk
      exact (findT_isSome_iff k _ ho).mpr ((build_ins_mem ks k).mpr hk)
  · intro hk
    have hmem : k ∈ inorderKeys (build (ks.map fun x => Op.ins x 0)) :=
      (build_ins_mem ks k).mpr hk
    have hsome := removeAux_isSome_of_mem k _ ho hmem
    obtain ⟨p, hp⟩ := Option.isSome_iff_exists.mp hsome
    refine ⟨p, hp, ?_⟩
    have hperm := removeAux_perm_keys k _ p.1 p.2 (by rw [hp])
    have ho2 := removeAux_ordered k _ p.1 p.2 ho (by rw [hp])
    have hnodupK : (inorderKeys (build (ks.map fun x => Op.ins x 0))).Nodup :=
      List.Pairwise.imp (fun h => ne_of_lt h) ho
    have hnd2 : (k :: inorderKeys p.1).Nodup := hperm.nodup_iff.mp hnodupK
    have hknot : k ∉ inorderKeys p.1 := (List.nodup_cons.mp hnd2).1
    show (findT k p.1).isSome = false
    exact Bool.eq_false_iff.mpr
      (fun hs => hknot ((findT_isSome_iff k p.1 ho2).mp hs))

/-- C1 witnessed on the distinct key set 1, 2: contains reflects
membership and removing 2 makes contains(2) false. -/
theorem c1_membership_witness :
    (containsT 2 (build (([1, 2] : List Nat).map fun x => Op.ins x 0)) = true
        ↔ 2 ∈ ([1, 2] : List Nat))
    ∧ (2 ∈ ([1, 2] : List Nat) →
        ∃ p : Tree Nat × List Ev,
          removeAux 2 (build (([1, 2] : List Nat).map fun x => Op.ins x 0)) = some p
          ∧ containsT 2 p.1 = false) :=
  c1_membership [1, 2] (by decide) 2

/-- C5: inserting a node whose key compares equal to a stored key
returns false with the tree and the argument node untouched (and thus
still valid). -/
theorem c5_duplicate_insert (nf : NodeFields α) (t : Tree α) (ho : Ordered t)
    (hpre : insertPre nf) (hdup : nf.key ∈ inorderKeys t) :
    insertPub nf t = Except.ok (false, t, nf) := by
  obtain ⟨h1, h2, h3⟩ := hpre
  unfold insertPub
  rw [if_neg (by simp [h1]), if_neg (by simp [h2]), if_neg (by simp [h3])]
  rw [insertAux_none_of_mem nf.key nf.idn nf.level t ho hdup]

/-- C5 witnessed: inserting a fresh node with key 5 into the singleton
tree storing 5 returns false and changes nothing. -/
theorem c5_duplicate_insert_witness :
    insertPub (newNode (5 : Nat) 1) w10t = Except.ok (false, w10t, newNode 5 1) :=
  c5_duplicate_insert (newNode 5 1) w10t (by decide) (by decide) (by decide)

/-- C7: removing a key to which no stored node compares equal returns
false, leaves the tree untouched, and invokes no callback. -/
theorem c7_missing_key_remove (x : α) (t : Tree α)
    (habs : ∀ y ∈ inorderKeys t, y ≠ x) :
    removeAux x t = none ∧ removePub x t = (false, t, []) := by
  have hn := removeAux_none_of_not_mem x t habs
  refine ⟨hn, ?_⟩
  unfold removePub
  rw [hn]

/-- C7 witnessed: removing 3 from the singleton tree storing 5 returns
false with no mutation and no callback. -/
theorem c7_missing_key_remove_witness :
    removeAux (3 : Nat) w10t = none ∧ removePub 3 w10t = (false, w10t, []) :=
  c7_missing_key_remove 3 w10t (by decide)

/-- Removal of a found node with two non-nil children: the victim
search runs in the found node's right subtree, the events are exactly
one copy (victim into the found node) followed by one free (of the
victim), the found node's identity survives, and exactly the victim's
identity leaves the tree. -/
theorem removeAux_two_children (x : α) :
    ∀ (T s : Tree α), findT x T = some s →
      leftT s ≠ Tree.nil → rightT s ≠ Tree.nil →
      ∃ (p : α × Nat) (r2 T2 : Tree α),
        removeLeftmost (rightT s) = some (p, r2)
        ∧ removeAux x T = some (T2, [Ev.copy p.2 (rootIdD s), Ev.free p.2])
        ∧ (inorderIds T).Perm (p.2 :: inorderIds T2)
        ∧ rootIdD s ∈ inorderIds T2 := by
  intro T
  induction T with
  | nil => intro s h; simp [findT] at h
  | node K I LV L R ihl ihr =>
    intro s hf hl hr
    rw [findT] at hf
    rw [removeAux]
    by_cases h1 : x < K
    · rw [if_pos h1] at hf
      rw [if_pos h1]
      obtain ⟨p, r2, T2, hrl, hra, hperm, hmem⟩ := ihl s hf hl hr
      refine ⟨p, r2, fixup (.node K I LV T2 R), hrl, ?_, ?_, ?_⟩
      · rw [hra]
        rfl
      · rw [inorderIds_node, inorderIds_fixup, inorderIds_node]
        exact hperm.append_right (I :: inorderIds R)
      · rw [inorderIds_fixup, inorderIds_node]
        exact List.mem_append.mpr (Or.inl hmem)
    · rw [if_neg h1] at hf
      rw [if_neg h1]
      by_cases h2 : K < x
      · rw [if_neg (by simpa using h2)] at hf
        rw [if_neg (by simpa using h2)]
        obtain ⟨p, r2, T2, hrl, hra, hperm, hmem⟩ := ihr s hf hl hr
        refine ⟨p, r2, fixup (.node K I LV L T2), hrl, ?_, ?_, ?_⟩
        · rw [hra]
          rfl
        · rw [inorderIds_node, inorderIds_fixup, inorderIds_node]
          refine ((hperm.cons I).append_left (inorderIds L)).trans ?_
          have hmid := @List.perm_middle _ p.2 (inorderIds L ++ [I]) (inorderIds T2)
          simpa [List.append_assoc] using hmid
        · rw [inorderIds_fixup, inorderIds_node]
          exact List.mem_append.mpr (Or.inr (List.mem_cons_of_mem _ hmem))
      · rw [if_pos (by simpa using h2)] at hf
        rw [if_pos (by simpa using h2)]
        have hs : s = Tree.node K I LV L R := by
          cases hf
          rfl
        subst hs
        simp only [leftT_node] at hl
        simp only [rightT_node] at hr
        cases L with
        | nil => exact absurd rfl hl
        | node lk li llv ll lr =>
          cases R with
          | nil => exact absurd rfl hr
          | node rk ri rlv rl rr =>
            cases hq : removeLeftmost (Tree.node rk ri rlv rl rr) with
            | none =>
              have := removeLeftmost_isSome (Tree.node rk ri rlv rl rr) (by simp)
              rw [hq] at this
              simp at this
            | some q =>
              obtain ⟨⟨vk, vi⟩, r2⟩ := q
              refine ⟨(vk, vi), r2,
                fixup (fixup (.node vk I LV (.node lk li llv ll lr) r2)), ?_, ?_, ?_, ?_⟩
              · rw [rightT_node]
                exact hq
              · rw [removeRoot_two K lk rk vk I li ri vi LV llv rlv ll lr rl rr r2 hq]
                rfl
              · rw [inorderIds_node K I LV (Tree.node lk li llv ll lr)
                    (Tree.node rk ri rlv rl rr),
                  inorderIds_fixup, inorderIds_fixup,
                  inorderIds_node vk I LV (Tree.node lk li llv ll lr) r2]
                obtain ⟨_, hid⟩ := removeLeftmost_inorder _ _ _ hq
                rw [hid]
                have hmid := @List.perm_middle _ vi
                  (inorderIds (Tree.node lk li llv ll lr) ++ [I]) (inorderIds r2)
                simpa [List.append_assoc] using hmid
              · rw [inorderIds_fixup, inorderIds_fixup, inorderIds_node]
                exact List.mem_append.mpr (Or.inr (List.mem_cons_self _ _))

/-- C6: removing a node t with two non-nil children chooses as victim
the leftmost node of t's right subtree (t's in-order successor, which
has a nil left child), calls copy_contents(victim, t) exactly once and
then free_node on the victim and never on t; t's identity stays in the
tree with only its contents changed, and exactly the victim's identity
leaves. -/
theorem c6_victim_removal (x : α) (T s : Tree α)
    (hnd : (inorderIds T).Nodup)
    (hf : findT x T = some s)
    (hl : leftT s ≠ Tree.nil) (hr : rightT s ≠ Tree.nil) :
    ∃ (p : α × Nat) (r2 T2 : Tree α) (lvv : Int) (rr : Tree α),
      leftmostT (rightT s) = some (Tree.node p.1 p.2 lvv Tree.nil rr)
      ∧ removeLeftmost (rightT s) = some (p, r2)
      ∧ inorderKeys (rightT s) = p.1 :: inorderKeys r2
      ∧ removeAux x T = some (T2, [Ev.copy p.2 (rootIdD s), Ev.free p.2])
      ∧ p.2 ≠ rootIdD s
      ∧ rootIdD s ∈ inorderIds T2
      ∧ p.2 ∉ inorderIds T2
      ∧ (inorderIds T).Perm (p.2 :: inorderIds T2) := by
  obtain ⟨p, r2, T2, hrl, hra, hperm, hmem⟩ :=
    removeAux_two_children x T s hf hl hr
  obtain ⟨lvv, rr, hlm⟩ := removeLeftmost_leftmostT _ _ _ hrl
  obtain ⟨hks, _⟩ := removeLeftmost_inorder _ _ _ hrl
  have hnd2 : (p.2 :: inorderIds T2).Nodup := hperm.nodup_iff.mp hnd
  have hvnot : p.2 ∉ inorderIds T2 := (List.nodup_cons.mp hnd2).1
  refine ⟨p, r2, T2, lvv, rr, hlm, hrl, hks, hra, ?_, hmem, hvnot, hperm⟩
  intro heq
  exact hvnot (heq ▸ hmem)

/-- Both children of every node of an ordered tree are distinct trees
(unless the left one is nil), so comparing child values coincides with
comparing node pointers. -/
theorem kidsDistinct_of_ordered : ∀ (t : Tree α), Ordered t → KidsDistinct t := by
  intro t
  induction t with
  | nil => intro _; trivial
  | node k i lv l r ihl ihr =>
    intro ho
    rw [ordered_node_iff] at ho
    obtain ⟨hol, hor, hlk, hkr, _⟩ := ho
    refine ⟨?_, ihl hol, ihr hor⟩
    cases l with
    | nil => exact Or.inl rfl
    | node lk li llv ll lr =>
      refine Or.inr ?_
      intro heq
      have hmem : lk ∈ inorderKeys (Tree.node lk li llv ll lr) := by
        rw [inorderKeys_node]
        exact List.mem_append.mpr (Or.inr (List.mem_cons_self _ _))
      have h1 : lk < k := hlk lk hmem
      have h2 : k < lk := hkr lk (heq ▸ hmem)
      exact absurd h2 (not_lt_of_gt h1)

/-- Children of a node inherit hereditary child distinctness. -/
theorem kidsDistinct_children (t : Tree α) (h : KidsDistinct t) :
    KidsDistinct (leftT t) ∧ KidsDistinct (rightT t) := by
  cases t with
  | nil => exact ⟨trivial, trivial⟩
  | node k i lv l r => exact ⟨h.2.1, h.2.2⟩

/-- Every node pushed by the left-spine descent satisfies hereditary
child distinctness if the seed and the prior stack do. -/
theorem pushLeftSpine_good :
    ∀ (u : Tree α), KidsDistinct u → ∀ (s : List (Tree α)),
      (∀ e ∈ s, KidsDistinct e) → ∀ e ∈ pushLeftSpine s u, KidsDistinct e := by
  intro u
  induction u with
  | nil =>
    intro _ s hs e he
    rw [pushLeftSpine] at he
    exact hs e he
  | node k i lv l r ihl ihr =>
    intro hu s hs e he
    rw [pushLeftSpine] at he
    refine ihl hu.2.1 _ ?_ e he
    intro e2 he2
    rcases List.mem_cons.mp he2 with rfl | he2
    · exact hu
    · exact hs e2 he2

/-- Elements of the popped-up stack come from the original stack. -/
theorem popUpLoop_mem :
    ∀ (rest : List (Tree α)) (par e : Tree α),
      e ∈ popUpLoop par rest → e ∈ rest := by
  intro rest
  induction rest with
  | nil => intro par e he; rw [popUpLoop] at he; cases he
  | cons pp rest2 ih =>
    intro par e he
    rw [popUpLoop] at he
    by_cases hp : leftT pp = par
    · rw [if_pos hp] at he
      exact he
    · rw [if_neg hp] at he
      exact List.mem_cons_of_mem _ (ih pp e he)

/-- Pending nodes of the empty stack. -/
theorem pendingL_nil : pendingL ([] : List (Tree α)) = [] := rfl

/-- Pending nodes of a non-empty stack. -/
theorem pendingL_cons (t : Tree α) (rest : List (Tree α)) :
    pendingL (t :: rest) =
      t :: (inorderSubs (rightT t) ++ pendAboveL t rest) := rfl

/-- Pending ancestors above the root of the stack. -/
theorem pendAboveL_nil (c : Tree α) : pendAboveL c [] = [] := rfl

/-- Pending ancestors, one step up the stack. -/
theorem pendAboveL_cons (c p : Tree α) (rest : List (Tree α)) :
    pendAboveL c (p :: rest) =
      if leftT p = c then p :: (inorderSubs (rightT p) ++ pendAboveL p rest)
      else pendAboveL p rest := rfl

/-- Pending nodes of a stack after pushing a left spine: the whole
subtree in symmetric order, then the pending ancestors. -/
theorem pendingL_pushLeftSpine :
    ∀ (u : Tree α), u ≠ Tree.nil → ∀ (s : List (Tree α)),
      pendingL (pushLeftSpine s u) = inorderSubs u ++ pendAboveL u s := by
  intro u
  induction u with
  | nil => intro h; exact absurd rfl h
  | node k i lv l r ihl ihr =>
    intro _ s
    rw [pushLeftSpine]
    cases l with
    | nil =>
      rw [pushLeftSpine, pendingL, rightT_node]
      simp [inorderSubs]
    | node lk li llv ll lr =>
      rw [ihl (by simp) ((Tree.node k i lv (Tree.node lk li llv ll lr) r) :: s)]
      rw [pendAboveL_cons, if_pos (by rw [leftT_node]), rightT_node]
      simp [inorderSubs, List.append_assoc]

/-- Unfolding of next on a singleton stack. -/
theorem iterNext_cons_nil (t0 : Tree α) :
    iterNext [t0] =
      if rightT t0 ≠ Tree.nil then some (t0, pushLeftSpine [t0] (rightT t0))
      else some (t0, []) := rfl

/-- Unfolding of next with at least one ancestor on the stack. -/
theorem iterNext_cons_cons (t0 par : Tree α) (rest2 : List (Tree α)) :
    iterNext (t0 :: par :: rest2) =
      if rightT t0 ≠ Tree.nil then
        some (t0, pushLeftSpine (t0 :: par :: rest2) (rightT t0))
      else if leftT par = t0 then some (t0, par :: rest2)
      else some (t0, popUpLoop par rest2) := rfl

/-- Case 1 of next: a non-nil right child, push its left spine. -/
theorem iterNext_right (t0 : Tree α) (rest : List (Tree α))
    (h : rightT t0 ≠ Tree.nil) :
    iterNext (t0 :: rest) = some (t0, pushLeftSpine (t0 :: rest) (rightT t0)) := by
  cases rest with
  | nil => rw [iterNext_cons_nil, if_pos h]
  | cons par rest2 => rw [iterNext_cons_cons, if_pos h]

/-- Pending nodes of a stack after popping through right links. -/
theorem pendingL_popUpLoop :
    ∀ (rest : List (Tree α)) (par : Tree α),
      pendingL (popUpLoop par rest) = pendAboveL par rest := by
  intro rest
  induction rest with
  | nil => intro par; rfl
  | cons pp rest2 ih =>
    intro par
    rw [popUpLoop, pendAboveL_cons]
    by_cases hp : leftT pp = par
    · rw [if_pos hp, if_pos hp, pendingL_cons]
    · rw [if_neg hp, if_neg hp, ih]

/-- One call to next yields the head of the pending sequence and
leaves exactly its tail pending, and keeps the stack hereditarily
child-distinct. -/
theorem iterNext_pending (s : List (Tree α)) (hg : ∀ e ∈ s, KidsDistinct e)
    (t : Tree α) (s2 : List (Tree α)) (hnext : iterNext s = some (t, s2)) :
    pendingL s = t :: pendingL s2 ∧ ∀ e ∈ s2, KidsDistinct e := by
  cases s with
  | nil => simp [iterNext] at hnext
  | cons t0 rest =>
    by_cases hrt : rightT t0 ≠ Tree.nil
    · rw [iterNext_right t0 rest hrt] at hnext
      simp only [Option.some.injEq, Prod.mk.injEq] at hnext
      obtain ⟨rfl, hs2⟩ := hnext
      subst hs2
      have hkd : KidsDistinct t0 := hg t0 (List.mem_cons_self _ _)
      have hne : leftT t0 ≠ rightT t0 := by
        cases t0 with
        | nil => simp at hrt
        | node k i lv l r =>
          rw [leftT_node, rightT_node]
          rcases hkd.1 with hnil | hne2
          · subst hnil
            intro heq
            rw [rightT_node] at hrt
            exact hrt heq.symm
          · exact hne2
      constructor
      · rw [pendingL_pushLeftSpine (rightT t0) hrt (t0 :: rest)]
        rw [pendAboveL_cons, if_neg hne, pendingL_cons]
      · exact pushLeftSpine_good (rightT t0)
          (kidsDistinct_children t0 hkd).2 (t0 :: rest) hg
    · have hrtnil : rightT t0 = Tree.nil := not_not.mp hrt
      cases rest with
      | nil =>
        rw [iterNext_cons_nil, if_neg hrt] at hnext
        simp only [Option.some.injEq, Prod.mk.injEq] at hnext
        obtain ⟨rfl, hs2⟩ := hnext
        subst hs2
        constructor
        · rw [pendingL_cons, hrtnil]
          simp [inorderSubs, pendAboveL_nil, pendingL_nil]
        · intro e he
          cases he
      | cons par rest2 =>
        rw [iterNext_cons_cons, if_neg hrt] at hnext
        by_cases hp : leftT par = t0
        · rw [if_pos hp] at hnext
          simp only [Option.some.injEq, Prod.mk.injEq] at hnext
          obtain ⟨rfl, hs2⟩ := hnext
          subst hs2
          constructor
          · rw [pendingL_cons, hrtnil, pendAboveL_cons, if_pos hp, pendingL_cons]
            simp [inorderSubs]
          · intro e he
            exact hg e (List.mem_cons_of_mem _ he)
        · rw [if_neg hp] at hnext
          simp only [Option.some.injEq, Prod.mk.injEq] at hnext
          obtain ⟨rfl, hs2⟩ := hnext
          subst hs2
          constructor
          · rw [pendingL_cons, hrtnil, pendAboveL_cons, if_neg hp, pendingL_popUpLoop]
            simp [inorderSubs]
          · intro e he
            exact hg e (List.mem_cons_of_mem _
              (List.mem_cons_of_mem _ (popUpLoop_mem rest2 par e he)))

/-- The iterator has a next node exactly while its stack is non-empty. -/
theorem iterNext_cons_ne_none (t0 : Tree α) (rest : List (Tree α)) :
    iterNext (t0 :: rest) ≠ none := by
  by_cases h : rightT t0 ≠ Tree.nil
  · rw [iterNext_right t0 rest h]
    simp
  · cases rest with
    | nil =>
      rw [iterNext_cons_nil, if_neg h]
      simp
    | cons par rest2 =>
      rw [iterNext_cons_cons, if_neg h]
      by_cases hp : leftT par = t0 <;> simp [hp]

/-- Given enough fuel, driving next to exhaustion returns exactly the
pending sequence. -/
theorem iterRunT_pendingL :
    ∀ (n : Nat) (s : List (Tree α)), (∀ e ∈ s, KidsDistinct e) →
      (pendingL s).length ≤ n → iterRunT n s = pendingL s := by
  intro n
  induction n with
  | zero =>
    intro s _ hlen
    rw [iterRunT]
    exact (List.length_eq_zero.mp (Nat.le_zero.mp hlen)).symm
  | succ n ih =>
    intro s hg hlen
    cases s with
    | nil => rfl
    | cons t0 rest =>
      cases hnext : iterNext (t0 :: rest) with
      | none => exact absurd hnext (iterNext_cons_ne_none t0 rest)
      | some pr =>
        obtain ⟨t, s2⟩ := pr
        obtain ⟨hpend, hg2⟩ := iterNext_pending _ hg t s2 hnext
        have hstep : iterRunT (n + 1) (t0 :: rest) = t :: iterRunT n s2 := by
          rw [iterRunT, hnext]
        have hlen2 : (pendingL s2).length ≤ n := by
          rw [hpend] at hlen
          simpa using Nat.le_of_succ_le_succ hlen
        rw [hstep, hpend, ih s2 hg2 hlen2]

/-- The freshly initialized iterator has the whole tree pending in
symmetric order. -/
theorem pendingL_iterInit (t : Tree α) :
    pendingL (iterInit t) = inorderSubs t := by
  cases t with
  | nil => rfl
  | node k i lv l r =>
    rw [iterInit, pendingL_pushLeftSpine _ (by simp) []]
    rw [pendAboveL_nil]
    simp

/-- The symmetric-order node list has one entry per stored node. -/
theorem length_inorderSubs (t : Tree α) :
    (inorderSubs t).length = sizeT t := by
  induction t with
  | nil => rfl
  | node k i lv l r ihl ihr =>
    simp [inorderSubs, sizeT, ihl, ihr]
    omega

/-- Keys of the symmetric-order node list are the symmetric-order keys. -/
theorem keysOfSubs_inorderSubs (t : Tree α) :
    keysOfSubs (inorderSubs t) = inorderKeys t := by
  induction t with
  | nil => rfl
  | node k i lv l r ihl ihr =>
    have ihl' := ihl
    have ihr' := ihr
    rw [keysOfSubs] at ihl' ihr'
    rw [keysOfSubs, inorderSubs, inorderKeys_node]
    rw [List.filterMap_append, ihl']
    rw [List.filterMap_cons, rootKey_node, ihr']

/-- C3: on any tree built by a sequence of inserts and removes, running
the in-order iterator to exhaustion yields exactly the stored nodes in
symmetric order — their keys are the symmetric-order keys, which are
strictly increasing, and the count equals the tree's size. -/
theorem c3_inorder_iterator (ops : List (Op α)) :
    iterRunT (sizeT (build ops)) (iterInit (build ops)) = inorderSubs (build ops)
    ∧ keysOfSubs (iterRunT (sizeT (build ops)) (iterInit (build ops)))
        = inorderKeys (build ops)
    ∧ List.Pairwise (· < ·) (inorderKeys (build ops))
    ∧ (iterRunT (sizeT (build ops)) (iterInit (build ops))).length
        = sizeT (build ops) := by
  have ho := build_ordered ops
  have hkd : KidsDistinct (build ops) := kidsDistinct_of_ordered _ ho
  have hg : ∀ e ∈ iterInit (build ops), KidsDistinct e := by
    rw [iterInit]
    exact pushLeftSpine_good _ hkd [] (by intro e he; cases he)
  have hpend := pendingL_iterInit (build ops)
  have hrun := iterRunT_pendingL (sizeT (build ops)) (iterInit (build ops)) hg
    (by rw [hpend, length_inorderSubs])
  rw [hrun, hpend]
  exact ⟨rfl, keysOfSubs_inorderSubs _, ho, length_inorderSubs _⟩

/-- C6 witnessed on the three-node tree: removing the root key 2 picks
victim 3, copies it into the root slot, frees identity 3, and keeps
identity 2. -/
theorem c6_victim_removal_witness :
    ∃ (p : Nat × Nat) (r2 T2 : Tree Nat) (lvv : Int) (rr : Tree Nat),
      leftmostT (rightT w6T) = some (Tree.node p.1 p.2 lvv Tree.nil rr)
      ∧ removeLeftmost (rightT w6T) = some (p, r2)
      ∧ inorderKeys (rightT w6T) = p.1 :: inorderKeys r2
      ∧ removeAux 2 w6T = some (T2, [Ev.copy p.2 (rootIdD w6T), Ev.free p.2])
      ∧ p.2 ≠ rootIdD w6T
      ∧ rootIdD w6T ∈ inorderIds T2
      ∧ p.2 ∉ inorderIds T2
      ∧ (inorderIds w6T).Perm (p.2 :: inorderIds T2) :=
  c6_victim_removal 2 w6T w6T (by decide) (by decide) (by decide) (by decide)

/-- Pending nodes of the empty postfix stack. -/
theorem pendingP_nil : pendingP ([] : List (PEntry α)) = [] := rfl

/-- Pending nodes of a non-empty postfix stack. -/
theorem pendingP_cons (e : PEntry α) (rest : List (PEntry α)) :
    pendingP (e :: rest) = pendE e ++ pendAboveP e.nd rest := rfl

/-- Pending ancestors above the postfix stack root. -/
theorem pendAboveP_nil (c : Tree α) : pendAboveP c ([] : List (PEntry α)) = [] := rfl

/-- Pending ancestors, one step up the postfix stack. -/
theorem pendAboveP_cons (c : Tree α) (p : PEntry α) (rest : List (PEntry α)) :
    pendAboveP c (p :: rest) =
      if leftT p.nd = c then
        (if rvisB p then [] else postSubs (rightT p.nd)) ++
          (p.nd :: pendAboveP p.nd rest)
      else p.nd :: pendAboveP p.nd rest := rfl

/-- Next on a singleton postfix stack pops the last node. -/
theorem postNext_one (c : PEntry α) : postNext [c] = some (c.nd, []) := rfl

/-- Unfolding of next with an ancestor on the stack, given the marked
parent entry. -/
theorem postNext_step (c p : PEntry α) (rest2 : List (PEntry α)) (p' : PEntry α)
    (hp' : (if leftT p.nd = c.nd then { p with lb := true }
            else { p with rb := true }) = p') :
    postNext (c :: p :: rest2) =
      if rvisB p' then some (c.nd, p' :: rest2)
      else some (c.nd, pushSpineP (p' :: rest2) (rightT p.nd)) := by
  subst hp'
  rfl

/-- Spine descent stops at the nil sentinel. -/
theorem pushSpineP_nil_tree (s : List (PEntry α)) :
    pushSpineP s Tree.nil = s := rfl

/-- Spine descent takes the right child when the left is nil. -/
theorem pushSpineP_left_nil (s : List (PEntry α)) (k : α) (i : Nat) (lv : Int)
    (r : Tree α) :
    pushSpineP s (Tree.node k i lv Tree.nil r) =
      pushSpineP (⟨Tree.node k i lv Tree.nil r, false, false⟩ :: s) r := rfl

/-- Spine descent prefers a non-nil left child. -/
theorem pushSpineP_left_node (s : List (PEntry α)) (k : α) (i : Nat) (lv : Int)
    (lk : α) (li : Nat) (llv : Int) (ll lr r : Tree α) :
    pushSpineP s (Tree.node k i lv (Tree.node lk li llv ll lr) r) =
      pushSpineP (⟨Tree.node k i lv (Tree.node lk li llv ll lr) r, false, false⟩ :: s)
        (Tree.node lk li llv ll lr) := rfl

/-- A completely visited entry owes only its own node. -/
theorem pendE_done (e : PEntry α) (hl : lvisB e = true) (hr : rvisB e = true) :
    pendE e = [e.nd] := by
  rw [pendE, hl, hr]
  rfl

/-- In a child-distinct node a non-nil left child differs from the
right child. -/
theorem kd_left_ne_right (t : Tree α) (hkd : KidsDistinct t)
    (hne : leftT t ≠ Tree.nil) : leftT t ≠ rightT t := by
  cases t with
  | nil => exact absurd rfl hne
  | node k i lv l r =>
    rw [leftT_node, rightT_node]
    rw [leftT_node] at hne
    rcases hkd.1 with hnil | hne2
    · exact absurd hnil hne
    · exact hne2

/-- Pending nodes after pushing a postfix spine: the whole subtree in
postfix order, then the pending ancestors. -/
theorem pendingP_pushSpineP :
    ∀ (u : Tree α), u ≠ Tree.nil → ∀ (s : List (PEntry α)),
      pendingP (pushSpineP s u) = postSubs u ++ pendAboveP u s := by
  intro u
  induction u with
  | nil => intro h; exact absurd rfl h
  | node k i lv l r ihl ihr =>
    intro _ s
    cases l with
    | nil =>
      rw [pushSpineP_left_nil]
      cases r with
      | nil =>
        rw [pushSpineP_nil_tree, pendingP_cons]
        simp [pendE, lvisB, rvisB, isNil, postSubs]
      | node rk ri rlv rl rr =>
        rw [ihr (by simp) _]
        rw [pendAboveP_cons, if_neg (by simp)]
        simp [postSubs, List.append_assoc]
    | node lk li llv ll lr =>
      rw [pushSpineP_left_node, ihl (by simp) _]
      rw [pendAboveP_cons, if_pos (by rw [leftT_node])]
      cases r with
      | nil => simp [rvisB, isNil, postSubs, List.append_assoc]
      | node rk ri rlv rl rr => simp [rvisB, isNil, postSubs, List.append_assoc]

/-- The postfix spine descent yields a well-formed stack whose top is a
true leaf (hence completely visited). -/
theorem pushSpineP_stackOK :
    ∀ (u : Tree α), KidsDistinct u → u ≠ Tree.nil → ∀ (s : List (PEntry α)),
      StackOK s → AdjTo u s →
      StackOK (pushSpineP s u) ∧ TopDone (pushSpineP s u) := by
  intro u
  induction u with
  | nil => intro _ h; exact absurd rfl h
  | node k i lv l r ihl ihr =>
    intro hkd _ s hs hadj
    cases l with
    | nil =>
      rw [pushSpineP_left_nil]
      have hs2 : StackOK (⟨Tree.node k i lv Tree.nil r, false, false⟩ :: s) :=
        ⟨⟨by simp, hkd⟩, hadj, hs⟩
      cases r with
      | nil =>
        rw [pushSpineP_nil_tree]
        exact ⟨hs2, ⟨rfl, rfl⟩⟩
      | node rk ri rlv rl rr =>
        refine ihr hkd.2.2 (by simp) _ hs2 ?_
        exact Or.inr ⟨by rw [rightT_node], by simp, rfl, rfl⟩
    | node lk li llv ll lr =>
      rw [pushSpineP_left_node]
      have hs2 : StackOK
          (⟨Tree.node k i lv (Tree.node lk li llv ll lr) r, false, false⟩ :: s) :=
        ⟨⟨by simp, hkd⟩, hadj, hs⟩
      refine ihl hkd.2.1 (by simp) _ hs2 ?_
      exact Or.inl ⟨by rw [leftT_node], by simp, rfl, rfl⟩

/-- One call to next on a well-formed postfix stack yields the head of
the pending sequence, leaves exactly its tail pending, and preserves
well-formedness. -/
theorem postNext_pending (s : List (PEntry α)) (hst : StackOK s) (htd : TopDone s)
    (t : Tree α) (s2 : List (PEntry α)) (hnext : postNext s = some (t, s2)) :
    pendingP s = t :: pendingP s2 ∧ StackOK s2 ∧ TopDone s2 := by
  match s with
  | [] => simp [postNext] at hnext
  | [c] =>
    rw [postNext_one] at hnext
    simp only [Option.some.injEq, Prod.mk.injEq] at hnext
    obtain ⟨rfl, hs2⟩ := hnext
    subst hs2
    obtain ⟨hcl, hcr⟩ := htd
    refine ⟨?_, trivial, trivial⟩
    rw [pendingP_cons, pendAboveP_nil, pendingP_nil, pendE_done c hcl hcr]
    simp
  | c :: p :: rest2 =>
    obtain ⟨⟨hcnil, hckd⟩, hadjc, ⟨hpnil, hpkd⟩, hadjp, hrest⟩ := hst
    obtain ⟨hcl, hcr⟩ := htd
    by_cases hp : leftT p.nd = c.nd
    · have hbits : p.lb = false ∧ p.rb = false := by
        rcases hadjc with ⟨_, _, hlb, hrb⟩ | ⟨heq, hne, _, _⟩
        · exact ⟨hlb, hrb⟩
        · exfalso
          have hlne : leftT p.nd ≠ Tree.nil := by
            rw [hp]
            exact hcnil
          exact kd_left_ne_right p.nd hpkd hlne (by rw [hp, heq])
      have hifp : (if leftT p.nd = c.nd then { p with lb := true }
          else { p with rb := true }) = { p with lb := true } := if_pos hp
      rw [postNext_step c p rest2 { p with lb := true } hifp] at hnext
      have hlv' : lvisB { p with lb := true } = true := by
        simp [lvisB]
      have hrvsame : rvisB { p with lb := true } = rvisB p := rfl
      by_cases hrv : rvisB { p with lb := true } = true
      · rw [if_pos hrv] at hnext
        simp only [Option.some.injEq, Prod.mk.injEq] at hnext
        obtain ⟨rfl, hs2⟩ := hnext
        subst hs2
        refine ⟨?_, ?_, ?_⟩
        · rw [pendingP_cons, pendE_done c hcl hcr, pendingP_cons,
            pendAboveP_cons, if_pos hp]
          rw [pendE_done { p with lb := true } hlv' hrv]
          rw [show rvisB p = true from hrvsame ▸ hrv]
          rfl
        · exact ⟨⟨hpnil, hpkd⟩, hadjp, hrest⟩
        · exact ⟨hlv', hrv⟩
      · rw [if_neg hrv] at hnext
        simp only [Option.some.injEq, Prod.mk.injEq] at hnext
        obtain ⟨rfl, hs2⟩ := hnext
        subst hs2
        have hrtne : rightT p.nd ≠ Tree.nil := by
          intro h
          apply hrv
          rw [rvisB]
          show (isNil (rightT p.nd) || p.rb) = true
          rw [h]
          rfl
        have hlne : leftT p.nd ≠ Tree.nil := by
          rw [hp]
          exact hcnil
        have hlr : leftT p.nd ≠ rightT p.nd := kd_left_ne_right p.nd hpkd hlne
        have hrvp : rvisB p = false := by
          rcases Bool.eq_false_or_eq_true (rvisB p) with h | h
          · exact absurd (hrvsame.trans h) hrv
          · exact h
        constructor
        · rw [pendingP_cons, pendE_done c hcl hcr, pendAboveP_cons, if_pos hp, hrvp]
          rw [pendingP_pushSpineP (rightT p.nd) hrtne _]
          rw [pendAboveP_cons]
          rw [if_neg (show ¬ leftT p.nd = rightT p.nd from hlr)]
          rfl
        · refine pushSpineP_stackOK (rightT p.nd)
            (kidsDistinct_children p.nd hpkd).2 hrtne _
            ⟨⟨hpnil, hpkd⟩, hadjp, hrest⟩ ?_
          exact Or.inr ⟨rfl, hrtne, hbits.2, hlv'⟩
    · have hfacts : c.nd = rightT p.nd ∧ p.rb = false ∧ lvisB p = true := by
        rcases hadjc with ⟨heq, _, _, _⟩ | ⟨heq, hne, hrb, hlv⟩
        · exact absurd heq.symm hp
        · exact ⟨heq, hrb, hlv⟩
      have hifp : (if leftT p.nd = c.nd then { p with lb := true }
          else { p with rb := true }) = { p with rb := true } := if_neg hp
      rw [postNext_step c p rest2 { p with rb := true } hifp] at hnext
      have hrv : rvisB { p with rb := true } = true := by
        rw [rvisB]
        simp
      rw [if_pos hrv] at hnext
      simp only [Option.some.injEq, Prod.mk.injEq] at hnext
      obtain ⟨rfl, hs2⟩ := hnext
      subst hs2
      have hlv' : lvisB { p with rb := true } = true := hfacts.2.2
      refine ⟨?_, ?_, ?_⟩
      · rw [pendingP_cons, pendE_done c hcl hcr, pendAboveP_cons, if_neg hp,
          pendingP_cons, pendE_done { p with rb := true } hlv' hrv]
        rfl
      · exact ⟨⟨hpnil, hpkd⟩, hadjp, hrest⟩
      · exact ⟨hlv', hrv⟩

/-- The postfix iterator has a next node while its stack is non-empty. -/
theorem postNext_cons_ne_none (c : PEntry α) (rest : List (PEntry α)) :
    postNext (c :: rest) ≠ none := by
  cases rest with
  | nil =>
    rw [postNext_one]
    simp
  | cons p rest2 =>
    rw [postNext_step c p rest2 _ rfl]
    by_cases h : rvisB (if leftT p.nd = c.nd then { p with lb := true }
        else { p with rb := true }) <;> simp [h]

/-- Given enough fuel, driving the postfix iterator to exhaustion
returns exactly the pending sequence. -/
theorem postRunT_pendingP :
    ∀ (n : Nat) (s : List (PEntry α)), StackOK s → TopDone s →
      (pendingP s).length ≤ n → postRunT n s = pendingP s := by
  intro n
  induction n with
  | zero =>
    intro s _ _ hlen
    rw [postRunT]
    exact (List.length_eq_zero.mp (Nat.le_zero.mp hlen)).symm
  | succ n ih =>
    intro s hst htd hlen
    cases s with
    | nil => rfl
    | cons c rest =>
      cases hnext : postNext (c :: rest) with
      | none => exact absurd hnext (postNext_cons_ne_none c rest)
      | some pr =>
        obtain ⟨t, s2⟩ := pr
        obtain ⟨hpend, hst2, htd2⟩ := postNext_pending _ hst htd t s2 hnext
        have hstep : postRunT (n + 1) (c :: rest) = t :: postRunT n s2 := by
          rw [postRunT, hnext]
        have hlen2 : (pendingP s2).length ≤ n := by
          rw [hpend] at hlen
          simpa using Nat.le_of_succ_le_succ hlen
        rw [hstep, hpend, ih s2 hst2 htd2 hlen2]

/-- The freshly initialized postfix iterator has the whole tree pending
in postfix order. -/
theorem pendingP_postInit (t : Tree α) :
    pendingP (postInit t) = postSubs t := by
  cases t with
  | nil => rfl
  | node k i lv l r =>
    rw [postInit, pendingP_pushSpineP _ (by simp) [], pendAboveP_nil]
    simp

/-- The freshly initialized postfix stack is well formed with a fully
visited top. -/
theorem postInit_stackOK (t : Tree α) (hkd : KidsDistinct t) :
    StackOK (postInit t) ∧ TopDone (postInit t) := by
  cases t with
  | nil => exact ⟨trivial, trivial⟩
  | node k i lv l r =>
    exact pushSpineP_stackOK _ hkd (by simp) [] trivial trivial

/-- The postfix node list has one entry per stored node. -/
theorem length_postSubs (t : Tree α) : (postSubs t).length = sizeT t := by
  induction t with
  | nil => rfl
  | node k i lv l r ihl ihr =>
    simp [postSubs, sizeT, ihl, ihr]
    omega

/-- The postfix node list enumerates exactly the stored identities. -/
theorem postSubs_ids_perm (t : Tree α) :
    (List.map rootIdD (postSubs t)).Perm (inorderIds t) := by
  induction t with
  | nil => exact List.Perm.refl _
  | node k i lv l r ihl ihr =>
    rw [postSubs, List.append_assoc, inorderIds_node, List.map_append, List.map_append]
    simp only [List.map_cons, List.map_nil, rootIdD_node]
    exact ihl.append
      (((ihr.append (List.Perm.refl [i]))).trans
        (List.perm_append_singleton i (inorderIds r)))

/-- A non-nil tree occurs in its own postfix node list. -/
theorem self_mem_postSubs (u : Tree α) (h : u ≠ Tree.nil) : u ∈ postSubs u := by
  cases u with
  | nil => exact absurd rfl h
  | node k i lv l r =>
    rw [postSubs, List.append_assoc]
    exact List.mem_append.mpr (Or.inr (List.mem_append.mpr
      (Or.inr (List.mem_cons_self _ _))))

/-- Occurrence in the nil sentinel. -/
theorem occursIn_nil (s : Tree α) : occursIn s Tree.nil = (s = Tree.nil) := rfl

/-- Occurrence in a node. -/
theorem occursIn_node (s : Tree α) (k : α) (i : Nat) (lv : Int) (l r : Tree α) :
    occursIn s (Tree.node k i lv l r) =
      (s = Tree.node k i lv l r ∨ occursIn s l ∨ occursIn s r) := rfl

/-- In the postfix node list, every node's non-nil children appear
strictly before the node itself. -/
theorem postSubs_children_before :
    ∀ (t s : Tree α), occursIn s t →
      (leftT s ≠ Tree.nil → List.Sublist [leftT s, s] (postSubs t))
      ∧ (rightT s ≠ Tree.nil → List.Sublist [rightT s, s] (postSubs t)) := by
  intro t
  induction t with
  | nil =>
    intro s hocc
    rw [occursIn_nil] at hocc
    subst hocc
    exact ⟨fun h => absurd leftT_nil h, fun h => absurd rightT_nil h⟩
  | node k i lv l r ihl ihr =>
    intro s hocc
    rw [occursIn_node] at hocc
    rcases hocc with rfl | hocc | hocc
    · constructor
      · intro h
        rw [leftT_node] at h ⊢
        rw [postSubs, List.append_assoc]
        exact List.Sublist.append
          (List.singleton_sublist.mpr (self_mem_postSubs l h))
          (List.sublist_append_right (postSubs r) [Tree.node k i lv l r])
      · intro h
        rw [rightT_node] at h ⊢
        rw [postSubs, List.append_assoc]
        refine List.Sublist.trans ?_
          (List.sublist_append_right (postSubs l) (postSubs r ++ [Tree.node k i lv l r]))
        exact List.Sublist.append
          (List.singleton_sublist.mpr (self_mem_postSubs r h))
          (List.Sublist.refl [Tree.node k i lv l r])
    · obtain ⟨h1, h2⟩ := ihl s hocc
      rw [postSubs, List.append_assoc]
      constructor
      · intro h
        exact (h1 h).trans (List.sublist_append_left (postSubs l) _)
      · intro h
        exact (h2 h).trans (List.sublist_append_left (postSubs l) _)
    · obtain ⟨h1, h2⟩ := ihr s hocc
      rw [postSubs, List.append_assoc]
      constructor
      · intro h
        exact ((h1 h).trans (List.sublist_append_left (postSubs r) _)).trans
          (List.sublist_append_right (postSubs l) _)
      · intro h
        exact ((h2 h).trans (List.sublist_append_left (postSubs r) _)).trans
          (List.sublist_append_right (postSubs l) _)

/-- C4: on any tree built by a sequence of inserts and removes, running
the postfix iterator to exhaustion yields exactly the stored nodes in
postfix order — one entry per node (the identities are a permutation of
the stored identities), and every node's non-nil children are yielded
strictly before the node itself. -/
theorem c4_postfix_iterator (ops : List (Op α)) :
    postRunT (sizeT (build ops)) (postInit (build ops)) = postSubs (build ops)
    ∧ (postRunT (sizeT (build ops)) (postInit (build ops))).length
        = sizeT (build ops)
    ∧ (List.map rootIdD (postRunT (sizeT (build ops)) (postInit (build ops)))).Perm
        (inorderIds (build ops))
    ∧ ∀ s : Tree α, occursIn s (build ops) →
        (leftT s ≠ Tree.nil → List.Sublist [leftT s, s]
          (postRunT (sizeT (build ops)) (postInit (build ops))))
        ∧ (rightT s ≠ Tree.nil → List.Sublist [rightT s, s]
          (postRunT (sizeT (build ops)) (postInit (build ops)))) := by
  have ho := build_ordered ops
  have hkd := kidsDistinct_of_ordered _ ho
  obtain ⟨hst, htd⟩ := postInit_stackOK (build ops) hkd
  have hpend := pendingP_postInit (build ops)
  have hrun := postRunT_pendingP (sizeT (build ops)) (postInit (build ops)) hst htd
    (by rw [hpend, length_postSubs])
  rw [hrun, hpend]
  exact ⟨rfl, length_postSubs _, postSubs_ids_perm _,
    fun s hocc => postSubs_children_before (build ops) s hocc⟩

end DSLib
